import Mathlib

/-!
Verification of the parsing/serialization core of the Mindcraft settings
editor (`settings_editor.py`).  The Python code is shallowly embedded:
text is `List Char`, the regex passes of `load_settings_file` become
executable scanners with the same match semantics, `json.loads` /
`json.dumps` become an executable JSON parser / printer, and the
fallback parser, suggestion miner, suffix handling and `save_settings`
serializer are translated function by function.
-/

namespace SettingsEditor

/-! ## Character classes (ASCII model of the Python classes used) -/

/-- Python regex `\s` / `str.strip` whitespace (ASCII model). -/
def isPyWs (c : Char) : Bool :=
  c = ' ' || c = '\t' || c = '\n' || c = '\r' || c = '\x0b' || c = '\x0c'

/-- Python regex `\w` (ASCII model): letters, digits, underscore. -/
def isWordChar (c : Char) : Bool := c.isAlphanum || c = '_'

/-- First character of `[a-zA-Z_]\w*`. -/
def isIdentStart (c : Char) : Bool := c.isAlpha || c = '_'

/-- Character class `[\w\-$]` used by the fallback key pattern. -/
def isKeyChar (c : Char) : Bool := isWordChar c || c = '-' || c = '$'

/-- ASCII lowercase conversion, modelling `str.lower` on the inputs used. -/
def lowerChar (c : Char) : Char :=
  if 65 ≤ c.toNat ∧ c.toNat ≤ 90 then Char.ofNat (c.toNat + 32) else c

/-- `str.lower` (ASCII model). -/
def pyLower (l : List Char) : List Char := l.map lowerChar

/-- `str.strip()` — drop leading and trailing whitespace. -/
def pyStrip (l : List Char) : List Char :=
  ((l.dropWhile isPyWs).reverse.dropWhile isPyWs).reverse

def lastIs (c : Char) (l : List Char) : Bool :=
  match l.getLast? with
  | some c0 => c0 = c
  | none => false

def headIs (c : Char) : List Char → Bool
  | c0 :: _ => c0 = c
  | [] => false

/-- Python `pat in s` substring containment. -/
def hasSubstr (pat : List Char) : List Char → Bool
  | [] => pat.isEmpty
  | l@(_ :: rest) => pat.isPrefixOf l || hasSubstr pat rest

/-! ## Lexical normalizer, step 1: `re.sub(r"//.*", "", s)`.
A `//` begins a comment that runs to (but not including) the next
newline; scanning continues at that newline. -/

def slcGo : Bool → List Char → List Char
  | _, [] => []
  | true, c :: rest => if c = '\n' then c :: slcGo false rest else slcGo true rest
  | false, '/' :: '/' :: r2 => slcGo true r2
  | false, c :: rest => c :: slcGo false rest

def stripLineComments (l : List Char) : List Char := slcGo false l

/-! ## Step 2: `re.sub(r"/\*[\s\S]*?\*/", "", s)`.
Lazy block comments; an unclosed `/*` is left verbatim (no match). -/

def sbcGo : Option (List Char) → List Char → List Char
  | none, [] => []
  | some acc, [] => acc.reverse
  | some _, '*' :: '/' :: r2 => sbcGo none r2
  | some acc, c :: rest => sbcGo (some (c :: acc)) rest
  | none, '/' :: '*' :: r2 => sbcGo (some ['*', '/']) r2
  | none, c :: rest => c :: sbcGo none rest

def stripBlockComments (l : List Char) : List Char := sbcGo none l

/-! ## Steps 3–5: `re.sub(r"\btok\b", repl, s)` for the bare tokens
`undefined`, `NaN`, `Infinity`.  Because each token consists of word
characters only, a `\b`-delimited occurrence is exactly a maximal
word-character run equal to the token, so the substitution replaces
whole word runs. -/

def emitRun (tok repl acc : List Char) : List Char :=
  if acc.reverse = tok then repl else acc.reverse

def rwtGo (tok repl : List Char) : List Char → List Char → List Char
  | acc, [] => emitRun tok repl acc
  | acc, c :: rest =>
      if isWordChar c then rwtGo tok repl (c :: acc) rest
      else emitRun tok repl acc ++ c :: rwtGo tok repl [] rest

def replaceWordToken (tok repl l : List Char) : List Char := rwtGo tok repl [] l

/-! ## Steps 6a/6b: quoting unquoted keys.
`re.sub(r'([{,]\s*)([a-zA-Z_]\w*)\s*:', r'\1"\2":', s)` followed by the
(redundant) brace-only variant `re.sub(r'(\{\s*)([a-zA-Z_]\w*)\s*:', ...)`. -/

/-- Attempt the `\s*  [a-zA-Z_]\w*  \s*  :` part of the key pattern at the
head of `l`; on success return the leading whitespace, the identifier, and
the text after the colon. -/
def tryKey (l : List Char) : Option (List Char × List Char × List Char) :=
  let ws := l.takeWhile isPyWs
  match l.dropWhile isPyWs with
  | c :: r2 =>
      if isIdentStart c then
        match (r2.dropWhile isWordChar).dropWhile isPyWs with
        | d :: after =>
            if d = ':' then some (ws, c :: r2.takeWhile isWordChar, after) else none
        | [] => none
      else none
  | [] => none

/-- Is `c` a bracket of the key-quoting pattern? (`{` always; `,` only in
the first pass). -/
def isQkBracket (commaToo : Bool) (c : Char) : Bool :=
  c = '{' || (commaToo && c = ',')

def qkF (commaToo : Bool) : Nat → List Char → List Char
  | 0, l => l
  | _ + 1, [] => []
  | fuel + 1, c :: rest =>
      if isQkBracket commaToo c then
        match tryKey rest with
        | some (ws, id, after) =>
            c :: (ws ++ '"' :: (id ++ '"' :: ':' :: qkF commaToo fuel after))
        | none => c :: qkF commaToo fuel rest
      else c :: qkF commaToo fuel rest

def quoteKeys (commaToo : Bool) (l : List Char) : List Char := qkF commaToo l.length l

/-! ## Step 7: `s.replace("'", '"')`. -/

def replaceQuotes (l : List Char) : List Char :=
  l.map fun c => if c = '\'' then '"' else c

/-! ## Step 8: `re.sub(r',(\s*[}\]])', r'\1', s)` — drop a comma that is
followed (after whitespace) by a closing `}` or `]`. -/

def stcF : Nat → List Char → List Char
  | 0, l => l
  | _ + 1, [] => []
  | fuel + 1, c :: rest =>
      if c = ',' then
        match rest.dropWhile isPyWs with
        | b :: after =>
            if b = '}' || b = ']' then rest.takeWhile isPyWs ++ b :: stcF fuel after
            else c :: stcF fuel rest
        | [] => c :: stcF fuel rest
      else c :: stcF fuel rest

def stripTrailingCommas (l : List Char) : List Char := stcF l.length l

/-- The full lexical normalizer applied to the extracted object literal,
exactly the sequence of `re.sub` / `replace` calls of the strict path of
`load_settings_file`. -/
def normalize (l : List Char) : List Char :=
  let s1 := stripLineComments l
  let s2 := stripBlockComments s1
  let s3 := replaceWordToken ("undefined").data ("null").data s2
  let s4 := replaceWordToken ("NaN").data ("\"NaN\"").data s3
  let s5 := replaceWordToken ("Infinity").data ("\"Infinity\"").data s4
  let s6 := quoteKeys true s5
  let s7 := quoteKeys false s6
  let s8 := replaceQuotes s7
  stripTrailingCommas s8

/-! ## JSON values (model of the Python objects produced by `json.loads`).
Floats cannot arise from the safe value shapes this development reasons
about; `jfloat` records the source lexeme so that the parser is total on
all inputs (Python would build an actual `float`). -/

inductive JVal where
  | jnull
  | jbool (b : Bool)
  | jint (n : Int)
  | jfloat (raw : List Char)
  | jstr (s : String)
  | jarr (elems : List JVal)
  | jobj (members : List (String × JVal))

/-- Python `dict` assignment `d[k] = v`: replace in place if the key is
present, else append. -/
def objInsert (m : List (String × JVal)) (k : String) (v : JVal) :
    List (String × JVal) :=
  match m with
  | [] => [(k, v)]
  | (k0, v0) :: rest =>
      if k0 = k then (k, v) :: rest else (k0, v0) :: objInsert rest k v

/-- JSON whitespace (`json.decoder` skips exactly these four). -/
def isJsonWs (c : Char) : Bool := c = ' ' || c = '\t' || c = '\n' || c = '\r'

def skipJsonWs (l : List Char) : List Char := l.dropWhile isJsonWs

def escCharOf (c : Char) : Option Char :=
  if c = '"' then some '"'
  else if c = '\\' then some '\\'
  else if c = '/' then some '/'
  else if c = 'b' then some '\x08'
  else if c = 'f' then some '\x0c'
  else if c = 'n' then some '\n'
  else if c = 'r' then some '\r'
  else if c = 't' then some '\t'
  else none

def hexVal (c : Char) : Option Nat :=
  if c.isDigit then some (c.toNat - 48)
  else if 'a' ≤ c ∧ c ≤ 'f' then some (c.toNat - 87)
  else if 'A' ≤ c ∧ c ≤ 'F' then some (c.toNat - 55)
  else none

/-- Body of a JSON string, after the opening quote: returns the decoded
characters and the text after the closing quote.  Strict mode: raw
control characters are rejected; unknown escapes are rejected. -/
def parseStrBody : List Char → Option (List Char × List Char)
  | [] => none
  | '"' :: rest => some ([], rest)
  | '\\' :: 'u' :: a :: b :: c :: d :: rest =>
      match hexVal a, hexVal b, hexVal c, hexVal d with
      | some ha, some hb, some hc, some hd =>
          (parseStrBody rest).map fun p =>
            (Char.ofNat (((ha * 16 + hb) * 16 + hc) * 16 + hd) :: p.1, p.2)
      | _, _, _, _ => none
  | '\\' :: e :: rest =>
      match escCharOf e with
      | some c => (parseStrBody rest).map fun p => (c :: p.1, p.2)
      | none => none
  | c :: rest =>
      if c.toNat < 32 then none
      else (parseStrBody rest).map fun p => (c :: p.1, p.2)

def natOfDigits (ds : List Char) : Nat :=
  ds.foldl (fun a c => a * 10 + (c.toNat - 48)) 0

/-- Python `json` number regex `(-?(?:0|[1-9]\d*))(\.\d+)?([eE][-+]?\d+)?`
anchored at the start of `l`.  A fractional part or exponent makes the
value a float (lexeme recorded); otherwise it is an int. -/
def parseNumber (l : List Char) : Option (JVal × List Char) :=
  let sign : Bool := headIs '-' l
  let l1 := if sign then l.tail else l
  match l1 with
  | c :: r =>
      if c.isDigit then
        let intDigits := if c = '0' then [c] else c :: r.takeWhile Char.isDigit
        let r2 := if c = '0' then r else r.dropWhile Char.isDigit
        let fracOpt : Option (List Char × List Char) :=
          if headIs '.' r2 then
            let ds := r2.tail.takeWhile Char.isDigit
            if ds.isEmpty then none else some ('.' :: ds, r2.tail.dropWhile Char.isDigit)
          else none
        let fracLex := match fracOpt with | some p => p.1 | none => []
        let r4 := match fracOpt with | some p => p.2 | none => r2
        let expOpt : Option (List Char × List Char) :=
          if headIs 'e' r4 || headIs 'E' r4 then
            let hasSign : Bool := headIs '+' r4.tail || headIs '-' r4.tail
            let r6 := if hasSign then r4.tail.tail else r4.tail
            let ds := r6.takeWhile Char.isDigit
            if ds.isEmpty then none
            else some (r4.take 1 ++ (if hasSign then r4.tail.take 1 else []) ++ ds,
              r6.dropWhile Char.isDigit)
          else none
        match expOpt with
        | some (expLex, r7) =>
            some (.jfloat ((if sign then ['-'] else []) ++ intDigits ++ fracLex ++ expLex), r7)
        | none =>
            match fracOpt with
            | some _ =>
                some (.jfloat ((if sign then ['-'] else []) ++ intDigits ++ fracLex), r4)
            | none =>
                let n : Int := Int.ofNat (natOfDigits intDigits)
                some (.jint (if sign then -n else n), r2)
      else none
  | [] => none

/-- Parser modes: a plain value, the element loop of an array, or the
member loop of an object (mirroring `json.decoder`). -/
inductive PMode where
  | value
  | arrElems (acc : List JVal)
  | objMembers (acc : List (String × JVal))

def parseF : Nat → PMode → List Char → Option (JVal × List Char)
  | 0, _, _ => none
  | fuel + 1, .value, l =>
      match skipJsonWs l with
      | '"' :: r => (parseStrBody r).map fun p => (.jstr (String.mk p.1), p.2)
      | '[' :: r =>
          match skipJsonWs r with
          | ']' :: r2 => some (.jarr [], r2)
          | _ => parseF fuel (.arrElems []) r
      | '{' :: r =>
          match skipJsonWs r with
          | '}' :: r2 => some (.jobj [], r2)
          | _ => parseF fuel (.objMembers []) r
      | 'n' :: r => if ("ull").data.isPrefixOf r then some (.jnull, r.drop 3) else none
      | 't' :: r => if ("rue").data.isPrefixOf r then some (.jbool true, r.drop 3) else none
      | 'f' :: r => if ("alse").data.isPrefixOf r then some (.jbool false, r.drop 4) else none
      | 'N' :: r => if ("aN").data.isPrefixOf r then some (.jfloat ("NaN").data, r.drop 2) else none
      | 'I' :: r =>
          if ("nfinity").data.isPrefixOf r then some (.jfloat ("Infinity").data, r.drop 7) else none
      | '-' :: r =>
          match parseNumber ('-' :: r) with
          | some p => some p
          | none =>
              if ("Infinity").data.isPrefixOf r then some (.jfloat ("-Infinity").data, r.drop 8)
              else none
      | c :: r => if c.isDigit then parseNumber (c :: r) else none
      | [] => none
  | fuel + 1, .arrElems acc, l =>
      match parseF fuel .value l with
      | some (v, r) =>
          match skipJsonWs r with
          | ',' :: r2 => parseF fuel (.arrElems (acc ++ [v])) r2
          | ']' :: r2 => some (.jarr (acc ++ [v]), r2)
          | _ => none
      | none => none
  | fuel + 1, .objMembers acc, l =>
      match skipJsonWs l with
      | '"' :: r =>
          match parseStrBody r with
          | some (k, r2) =>
              match skipJsonWs r2 with
              | ':' :: r3 =>
                  match parseF fuel .value r3 with
                  | some (v, r4) =>
                      match skipJsonWs r4 with
                      | ',' :: r5 => parseF fuel (.objMembers (objInsert acc (String.mk k) v)) r5
                      | '}' :: r5 => some (.jobj (objInsert acc (String.mk k) v), r5)
                      | _ => none
                  | none => none
              | _ => none
          | none => none
      | _ => none

/-- `json.loads`: parse one value and require only whitespace after it.
The fuel `2·|l| + 4` dominates the depth of any reachable recursion
(each two nested calls consume at least one character). -/
def jsonLoads (l : List Char) : Option JVal :=
  match parseF (2 * l.length + 4) .value l with
  | some (v, rest) => if (skipJsonWs rest).isEmpty then some v else none
  | none => none

/-! ## `json.dumps(value, ensure_ascii=False, indent=None)` -/

def hexDigitChar (n : Nat) : Char :=
  if n < 10 then Char.ofNat (48 + n) else Char.ofNat (87 + n)

def escJson (c : Char) : List Char :=
  if c = '"' then ['\\', '"']
  else if c = '\\' then ['\\', '\\']
  else if c = '\n' then ['\\', 'n']
  else if c = '\r' then ['\\', 'r']
  else if c = '\t' then ['\\', 't']
  else if c = '\x08' then ['\\', 'b']
  else if c = '\x0c' then ['\\', 'f']
  else if c.toNat < 32 then
    ['\\', 'u', '0', '0', hexDigitChar (c.toNat / 16), hexDigitChar (c.toNat % 16)]
  else [c]

def jdumpStr (s : String) : List Char := '"' :: (s.data.map escJson).flatten ++ ['"']

def natStrAux : Nat → Nat → List Char → List Char
  | 0, _, acc => acc
  | f + 1, n, acc =>
      let d := Char.ofNat (48 + n % 10)
      if n < 10 then d :: acc else natStrAux f (n / 10) (d :: acc)

/-- Decimal rendering of a natural number (Python `repr`). -/
def natStr (n : Nat) : List Char := natStrAux (n + 1) n []

/-- Decimal rendering of a Python int. -/
def intStr : Int → List Char
  | .ofNat m => natStr m
  | .negSucc m => '-' :: natStr (m + 1)

/-! `json.dumps(value, ensure_ascii=False, indent=None)` with the default
separators `", "` and `": "`.  (Float formatting is outside the modelled
value shapes; the recorded lexeme is reproduced.) -/
mutual

def jdumps : JVal → List Char
  | .jnull => ("null").data
  | .jbool true => ("true").data
  | .jbool false => ("false").data
  | .jint n => intStr n
  | .jfloat raw => raw
  | .jstr s => jdumpStr s
  | .jarr xs => '[' :: jdumpsArr xs ++ [']']
  | .jobj m => '{' :: jdumpsObj m ++ ['}']

def jdumpsArr : List JVal → List Char
  | [] => []
  | [v] => jdumps v
  | v :: vs => jdumps v ++ (", ").data ++ jdumpsArr vs

def jdumpsObj : List (String × JVal) → List Char
  | [] => []
  | [(k, v)] => jdumpStr k ++ (": ").data ++ jdumps v
  | (k, v) :: rest => jdumpStr k ++ (": ").data ++ jdumps v ++ (", ").data ++ jdumpsObj rest

end

/-! ## Locating the settings block:
`re.search(r'const\s+settings\s*=\s*(\{[\s\S]*?\n?\})[\s;]*', content)`.
The lazy group ends at the first `}` after the opening brace; the greedy
`[\s;]*` extends the match end past trailing whitespace and semicolons. -/

/-- Split at the first occurrence of `stop`, which is dropped; `none` if
`stop` does not occur. -/
def splitAtChar (stop : Char) : List Char → Option (List Char × List Char)
  | [] => none
  | c :: rest =>
      if c = stop then some ([], rest)
      else (splitAtChar stop rest).map fun p => (c :: p.1, p.2)

def isWsSemi (c : Char) : Bool := isPyWs c || c = ';'

/-- Attempt the `const settings = { ... }` pattern anchored at `l`;
returns (captured object literal, text after the whole match). -/
def tryConstSettings (l : List Char) : Option (List Char × List Char) :=
  if ("const").data.isPrefixOf l then
    let r0 := l.drop 5
    if (r0.takeWhile isPyWs).isEmpty then none
    else
      let r1 := r0.dropWhile isPyWs
      if ("settings").data.isPrefixOf r1 then
        match (r1.drop 8).dropWhile isPyWs with
        | '=' :: r3 =>
            match r3.dropWhile isPyWs with
            | '{' :: r4 =>
                match splitAtChar '}' r4 with
                | some (inside, r5) =>
                    some ('{' :: inside ++ ['}'], r5.dropWhile isWsSemi)
                | none => none
            | _ => none
        | _ => none
      else none
  else none

/-- Leftmost match of the settings-block pattern. -/
def settingsMatchGo : List Char → Option (List Char × List Char)
  | [] => none
  | c :: rest =>
      match tryConstSettings (c :: rest) with
      | some x => some x
      | none => settingsMatchGo rest

/-! ## Suffix handling (`load_settings_file` lines 1054–1066): the text
after the matched block is stripped, and `export default settings;` is
appended when the marker is absent. -/

def exportMarker : List Char := ("export default settings").data

def endsNlCr (l : List Char) : Bool :=
  match l.getLast? with
  | some c => c = '\n' || c = '\r'
  | none => false

def computeSuffix (tail : List Char) : List Char :=
  let sfx := pyStrip tail
  if !(hasSubstr exportMarker (pyLower sfx)) && !(hasSubstr exportMarker (pyLower tail)) then
    let nl := if !sfx.isEmpty && !(endsNlCr sfx) then ['\n'] else []
    nl ++ sfx ++ ("\nexport default settings;").data
  else if !(hasSubstr exportMarker (pyLower sfx)) && hasSubstr exportMarker (pyLower tail) then
    if (pyStrip sfx).isEmpty then ("\nexport default settings;").data else sfx
  else sfx

/-! ## Comment-mined profile suggestions (lines 1032–1043):
`re.search(r'("profiles"\s*:\s*\[)([^\]]*)(\])', content)` then
`re.findall(r'//\s*["\']([^"\']+)["\']', group2)`, with
`cp.replace("\\\\", "\\").replace("\\/", "/")` normalization and
order-preserving de-duplication. -/

/-- Attempt `"profiles"\s*:\s*\[ [^\]]* \]` anchored at `l`; returns the
bracket contents. -/
def tryProfilesAt (l : List Char) : Option (List Char) :=
  if ("\"profiles\"").data.isPrefixOf l then
    match (l.drop 10).dropWhile isPyWs with
    | ':' :: r2 =>
        match r2.dropWhile isPyWs with
        | '[' :: r3 => (splitAtChar ']' r3).map fun p => p.1
        | _ => none
    | _ => none
  else none

/-- Leftmost match of the profiles-array pattern. -/
def profilesRegionGo : List Char → Option (List Char)
  | [] => none
  | c :: rest =>
      match tryProfilesAt (c :: rest) with
      | some g => some g
      | none => profilesRegionGo rest

def notQuoteChar (c : Char) : Bool := !(c = '"' || c = '\'')

/-- `re.findall(r'//\s*["\']([^"\']+)["\']', region)`: every line-comment
fragment `// "name"` / `// 'name'` (closing quote of either style). -/
def fcF : Nat → List Char → List (List Char)
  | 0, _ => []
  | _ + 1, [] => []
  | fuel + 1, '/' :: '/' :: rest =>
      (let r1 := rest.dropWhile isPyWs
       match r1 with
       | q :: r2 =>
           if q = '"' || q = '\'' then
             let name := r2.takeWhile notQuoteChar
             match r2.dropWhile notQuoteChar with
             | _ :: r3 =>
                 if name.isEmpty then fcF fuel ('/' :: rest)
                 else name :: fcF fuel r3
             | [] => fcF fuel ('/' :: rest)
           else fcF fuel ('/' :: rest)
       | [] => fcF fuel ('/' :: rest))
  | fuel + 1, _ :: rest => fcF fuel rest

/-- One `str.replace(pat, rep)` pass (leftmost, non-overlapping). -/
def strReplaceF (pat rep : List Char) : Nat → List Char → List Char
  | 0, l => l
  | _ + 1, [] => []
  | fuel + 1, c :: rest =>
      if pat.isPrefixOf (c :: rest) then
        rep ++ strReplaceF pat rep fuel ((c :: rest).drop pat.length)
      else c :: strReplaceF pat rep fuel rest

def strReplace (pat rep l : List Char) : List Char := strReplaceF pat rep l.length l

/-- `cp.replace("\\\\", "\\").replace("\\/", "/")` — collapse doubled
backslashes, unescape `\/`. -/
def normalizeCp (cp : List Char) : List Char :=
  strReplace ['\\', '/'] ['/'] (strReplace ['\\', '\\'] ['\\'] cp)

def addUnique (acc : List (List Char)) (x : List Char) : List (List Char) :=
  if x ∈ acc then acc else acc ++ [x]

/-- The suggestion set mined from the raw file text. -/
def suggestionsOf (content : List Char) : List (List Char) :=
  match profilesRegionGo content with
  | none => []
  | some region => ((fcF region.length region).map normalizeCp).foldl addUnique []

/-! ## The heuristic fallback parser (lines 1092–1139). -/

/-- The key alternation `(?:"([\w\-$]+)"|'([\w\-$]+)'|([\w\-$]+))\s*:`
anchored at `l`; returns (key, chars consumed). -/
def tryKeyCore (l : List Char) : Option (List Char × Nat) :=
  let quoted : Char → Option (List Char × Nat) := fun q =>
    match l with
    | c :: r =>
        if c = q then
          let id := r.takeWhile isKeyChar
          match r.dropWhile isKeyChar with
          | c2 :: r2 =>
              if c2 = q ∧ !id.isEmpty then
                let wsn := (r2.takeWhile isPyWs).length
                match r2.dropWhile isPyWs with
                | ':' :: _ => some (id, 2 + id.length + wsn + 1)
                | _ => none
              else none
          | [] => none
        else none
    | [] => none
  match quoted '"' with
  | some x => some x
  | none =>
      match quoted '\'' with
      | some x => some x
      | none =>
          let id := l.takeWhile isKeyChar
          if id.isEmpty then none
          else
            let r := l.dropWhile isKeyChar
            let wsn := (r.takeWhile isPyWs).length
            match r.dropWhile isPyWs with
            | ':' :: _ => some (id, id.length + wsn + 1)
            | _ => none

/-- The full key pattern `(?:^|\s|,)(key)\s*:` anchored here: at position
0 the `^` branch is tried first, then a single `\s`/`,` prefix char. -/
def tryKeyMatch (atStart : Bool) (l : List Char) : Option (List Char × Nat) :=
  match (if atStart then tryKeyCore l else none) with
  | some r => some r
  | none =>
      match l with
      | c :: r =>
          if isPyWs c || c = ',' then (tryKeyCore r).map fun p => (p.1, p.2 + 1)
          else none
      | [] => none

/-- `re.finditer` of the key pattern: list of (key, match start, match
end) positions. -/
def fkGo : Nat → List Char → Nat → Bool → List (List Char × Nat × Nat)
  | 0, _, _, _ => []
  | _ + 1, [], _, _ => []
  | fuel + 1, c :: rest, idx, atStart =>
      match tryKeyMatch atStart (c :: rest) with
      | some (k, n) => (k, idx, idx + n) :: fkGo fuel ((c :: rest).drop n) (idx + n) false
      | none => fkGo fuel rest (idx + 1) false

def isDigitStr (l : List Char) : Bool := !l.isEmpty && l.all Char.isDigit

/-- Trim the raw value span (lines 1111–1117): strip, drop one trailing
`,`/`;`, and the extra nested-trailing-comma heuristic that peeks back
into the comment-stripped text `base` at offset `e + len(temp) + 1`. -/
def trimValueRaw (base : List Char) (e : Nat) (span : List Char) : List Char :=
  let v1 := pyStrip span
  let v2 := if lastIs ',' v1 || lastIs ';' v1 then pyStrip v1.dropLast else v1
  if lastIs ',' v2 then
    let temp := pyStrip v2.dropLast
    if headIs '}' (pyStrip (base.drop (e + temp.length + 1))) then temp else v2
  else v2

/-- Value classification (lines 1120–1138). -/
def classifyValue (raw : List Char) : JVal :=
  if pyLower raw = ("true").data then .jbool true
  else if pyLower raw = ("false").data then .jbool false
  else if pyLower raw = ("null").data ∨ pyLower raw = ("undefined").data then .jnull
  else if (headIs '"' raw && lastIs '"' raw) || (headIs '\'' raw && lastIs '\'' raw) then
    match jsonLoads (replaceQuotes raw) with
    | some v => v
    | none => .jstr (String.mk (raw.drop 1).dropLast)
  else if headIs '[' raw && lastIs ']' raw then
    match jsonLoads (replaceQuotes raw) with
    | some v => v
    | none => .jarr []
  else if isDigitStr raw || (headIs '-' raw && isDigitStr (raw.drop 1)) then
    .jint (if headIs '-' raw then -(Int.ofNat (natOfDigits (raw.drop 1))) else Int.ofNat (natOfDigits raw))
  else .jstr (String.mk raw)

def fbLoop (base : List Char) : List (List Char × Nat × Nat) → List (String × JVal) →
    List (String × JVal)
  | [], acc => acc
  | (k, _, e) :: restMs, acc =>
      let vEnd := match restMs with
        | (_, s2, _) :: _ => s2
        | [] => base.length
      let raw := trimValueRaw base e ((base.take vEnd).drop e)
      fbLoop base restMs (objInsert acc (String.mk k) (classifyValue raw))

/-- The heuristic fallback parser: comment-strip the extracted block,
find all key matches, classify the value spans between them. -/
def fallbackParse (blk : List Char) : List (String × JVal) :=
  let base := stripBlockComments (stripLineComments blk)
  fbLoop base (fkGo base.length base 0 true) []

/-! ## The load operation (`load_settings_file`, parsing core). -/

structure LoadResult where
  settings : List (String × JVal)
  suffix : List Char
  strict : Bool
  suggestions : List (List Char)

/-- Parse the raw file text: locate `const settings = {...}` (the only
failure), mine suggestions from the raw text, compute the suffix, then
strict-decode the normalized block with fallback on decode failure.
(The strict decode of a brace-delimited block can only yield an object,
so a non-object result is routed to the fallback branch, which is
unreachable.) -/
def loadSettings (content : List Char) : Option LoadResult :=
  match settingsMatchGo content with
  | none => none
  | some (blk, tail) =>
      let sugg := suggestionsOf content
      let sfx := computeSuffix tail
      match jsonLoads (normalize blk) with
      | some (.jobj m) => some ⟨m, sfx, true, sugg⟩
      | _ => some ⟨fallbackParse blk, sfx, false, sugg⟩

/-! ## The serializer (`save_settings`, lines 1244–1259). -/

/-- Python string comparison: lexicographic on code points. -/
def lexLe : List Char → List Char → Bool
  | [], _ => true
  | _ :: _, [] => false
  | a :: as, b :: bs =>
      if a.toNat < b.toNat then true
      else if b.toNat < a.toNat then false
      else lexLe as bs

/-- The entry order used by `sorted(d.items())`: compare keys as Python
strings (code-point lexicographic). -/
def entryLe (a b : String × JVal) : Prop := lexLe a.1.data b.1.data = true

instance : DecidableRel entryLe := fun a b => by unfold entryLe; infer_instance

/-- `sorted(d.items())` for a dict (unique keys): stable sort by key. -/
def sortEntries (m : List (String × JVal)) : List (String × JVal) :=
  m.insertionSort entryLe

/-- `sep.join(items)`. -/
def joinItems (sep : List Char) : List (List Char) → List Char
  | [] => []
  | [x] => x
  | x :: xs => x ++ sep ++ joinItems sep xs

def renderEntry (e : String × JVal) : List Char :=
  ("    \"").data ++ e.1.data ++ ("\": ").data ++ jdumps e.2

def startsNlCr (l : List Char) : Bool :=
  match l with
  | c :: _ => c = '\n' || c = '\r'
  | [] => false

/-- `save_settings`: sorted 4-space-indented entries inside `{\n ... \n}`,
suffix reattached with a separating newline when needed. -/
def serializeDoc (m : List (String × JVal)) (suffix : List Char) : List Char :=
  let entries := (sortEntries m).map renderEntry
  let obj := ("\x7b\n").data ++ joinItems ((",\n").data) entries ++ ("\n\x7d").data
  let esfx := if !suffix.isEmpty && !(startsNlCr suffix) then '\n' :: suffix else suffix
  let obj2 :=
    if suffix.isEmpty && !(lastIs '\n' obj) then obj ++ ['\n'] else obj
  ("const settings = ").data ++ obj2 ++ ';' :: esfx

/-! ## Concrete inputs used by the claim theorems -/

/-- §8 scenario 1 input, wrapped in the `const settings = ...;` frame the
loader requires (the `profiles` key is unquoted). -/
def exampleProfilesInput : List Char :=
  ("const settings = \x7b profiles: ['./a.json', // './b.json'\n ], speak: true, port: 55916 \x7d;").data

/-- The same input with the `profiles` key written with double quotes. -/
def exampleProfilesInputQuoted : List Char :=
  ("const settings = \x7b \"profiles\": ['./a.json', // './b.json'\n ], speak: true, port: 55916 \x7d;").data

/-- A profiles comment block whose names exercise the backslash
normalization: `// "a\b"`, `// "c\/d"`, `// "e\\f"`, and a repeat of
`// "a\b"`. -/
def backslashProfilesInput : List Char :=
  ("x \"profiles\": [ // \"a\\b\"\n // \"c\\/d\"\n // \"e\\\\f\"\n // \"a\\b\"\n ] y").data

/-- A well-formed file whose active settings object strict-decodes. -/
def cleanFileInput : List Char :=
  ("const settings = \x7b \"profiles\": [\"./a.json\", // \"./b.json\"\n ], speak: true \x7d;").data

/-- The same file with the settings object corrupted after the profiles
array (missing colon), forcing the fallback parser. -/
def corruptFileInput : List Char :=
  ("const settings = \x7b \"profiles\": [\"./a.json\", // \"./b.json\"\n ], speak true \x7d;").data

/-- A settings object whose string value contains `//` (a URL). -/
def urlObjectInput : List Char :=
  ("\x7b host: \"http://example.com\",\n port: 1 \x7d").data

/-- A settings file whose object holds the bare token `NaN`. -/
def nanFileInput : List Char := ("const settings = \x7ba: NaN\x7d;").data

/-- A settings file that already carries the `export default settings;`
marker in its tail. -/
def markerFileInput : List Char :=
  ("const settings = \x7ba: 1\x7d;\nexport default settings;\n").data

/-! ## Safe documents: the value shapes whose serialized form survives the
lexical normalizer verbatim and strict-decodes back.  `safeChar` admits the
ASCII characters that are inert for every normalizer pass and for the JSON
string escaping: digits, letters, and `_ - $ . ! space`. -/

def safeChar (c : Char) : Bool :=
  (48 ≤ c.toNat && c.toNat ≤ 57) || (65 ≤ c.toNat && c.toNat ≤ 90) ||
  (97 ≤ c.toNat && c.toNat ≤ 122) ||
  c.toNat == 95 || c.toNat == 45 || c.toNat == 36 || c.toNat == 46 ||
  c.toNat == 33 || c.toNat == 32

/-- The three bare-token substitutions of the normalizer leave `s` alone
(in particular `s` is not itself one of the tokens). -/
def tokFreeB (s : List Char) : Bool :=
  decide (replaceWordToken (("undefined").data) (("null").data) s = s) &&
  decide (replaceWordToken (("NaN").data) (("\"NaN\"").data) s = s) &&
  decide (replaceWordToken (("Infinity").data) (("\"Infinity\"").data) s = s)

def safeStrB (s : List Char) : Bool := s.all safeChar && tokFreeB s

/-- An array element that round-trips: a safe string. -/
def elemOkB : JVal → Bool
  | .jstr s => safeStrB s.data
  | _ => false

/-- A top-level value that round-trips: `null`, booleans, ints, safe
strings, and arrays of safe strings. -/
def safeValB : JVal → Bool
  | .jnull => true
  | .jbool _ => true
  | .jint _ => true
  | .jstr s => safeStrB s.data
  | .jarr xs => xs.all elemOkB
  | _ => false

def safeDocB (m : List (String × JVal)) : Bool :=
  m.all fun e => safeStrB e.1.data && safeValB e.2

/-- The string payloads of a (safe-shaped) value. -/
def valStrs : JVal → List String
  | .jstr s => [s]
  | .jarr xs => xs.flatMap fun v => match v with | .jstr s => [s] | _ => []
  | _ => []

/-! ## Theorems -/

/-- C1: once the `const settings = { ... }` block is located, a load
always produces a document: the strict-decoder failure is absorbed by the
total fallback parser, so the only caller-visible failure of
`loadSettings` is the structural one where the block cannot be found. -/
theorem load_fails_only_structurally (content : List Char) :
    (loadSettings content).isSome ↔ (settingsMatchGo content).isSome := by
  unfold loadSettings
  cases h : settingsMatchGo content with
  | none => simp
  | some p =>
      obtain ⟨blk, tail⟩ := p
      cases hj : jsonLoads (normalize blk) with
      | none => simp [hj]
      | some v => cases v <;> simp [hj]

/-- C10: line-comment stripping is not string-aware.  For the object
literal `{ host: "http://example.com",\n port: 1 }` the normalizer's
first pass deletes everything from `//` to the end of that line — the
inside of the quoted URL included — so the text handed to the strict
decoder no longer contains the original value. -/
theorem line_comment_stripping_eats_urls :
    stripLineComments urlObjectInput = ("\x7b host: \"http:\n port: 1 \x7d").data ∧
    hasSubstr (("http://example.com").data) (normalize urlObjectInput) = false ∧
    hasSubstr (("http://example.com").data) urlObjectInput = true := by
  refine ⟨rfl, ?_, ?_⟩ <;> decide

/-- C6 counterexample: the suggestion extractor's pattern
`"profiles"\s*:\s*\[` requires a double-quoted key, so for the §8
scenario-1 input (unquoted `profiles` key) the mined SuggestionSet is
empty, not `{"./b.json"}` as claimed. -/
theorem suggestions_unquoted_profiles_counterexample :
    suggestionsOf exampleProfilesInput = [] ∧
    suggestionsOf exampleProfilesInput ≠ [("./b.json").data] := by
  refine ⟨rfl, ?_⟩; decide

/-- C6 amended: for the scenario-1 input, parse strict-decodes to
`profiles ↦ ["./a.json"], speak ↦ true, port ↦ 55916` as claimed, but the
SuggestionSet is empty because the `profiles` key is not double-quoted;
writing the key as `"profiles"` makes the extractor mine `{"./b.json"}`. -/
theorem profiles_example_parse_and_suggestions :
    loadSettings exampleProfilesInput =
      some ⟨[("profiles", .jarr [.jstr "./a.json"]), ("speak", .jbool true),
             ("port", .jint 55916)],
            ("\nexport default settings;").data, true, []⟩ ∧
    suggestionsOf exampleProfilesInputQuoted = [("./b.json").data] := ⟨rfl, rfl⟩

/-- C7 counterexample: comment-mined names are normalized with
`replace("\\\\", "\\")` and `replace("\\/", "/")` — a single backslash
path separator is left as a backslash, not turned into a forward slash:
`// "a\b"` is collected as `a\b`, not `a/b`. -/
theorem suggestion_backslash_counterexample :
    suggestionsOf (("x \"profiles\": [ // \"a\\b\"\n ] y").data) = [("a\\b").data] ∧
    ("a\\b").data ≠ ("a/b").data := by
  refine ⟨rfl, ?_⟩; decide

/-- The order-preserving de-duplicating fold keeps its accumulator free of
duplicates. -/
theorem nodup_foldl_addUnique (xs : List (List Char)) :
    ∀ acc : List (List Char), acc.Nodup → (xs.foldl addUnique acc).Nodup := by
  induction xs with
  | nil => intro acc h; exact h
  | cons x xs ih =>
      intro acc h
      simp only [List.foldl_cons]
      apply ih
      unfold addUnique
      split
      · exact h
      · next hx => simp [List.nodup_append, h, hx]

/-- C7 amended: within the located profiles span every `// "name"` /
`// 'name'` fragment is collected with doubled backslashes collapsed
(`\\` → `\`) and escaped slashes unescaped (`\/` → `/`) — single
backslashes are kept — duplicates are dropped preserving first-seen
order, and when no profiles array is found the SuggestionSet is empty. -/
theorem suggestion_mining_properties :
    (∀ content, profilesRegionGo content = none → suggestionsOf content = []) ∧
    (∀ content, (suggestionsOf content).Nodup) ∧
    suggestionsOf backslashProfilesInput =
      [("a\\b").data, ("c/d").data, ("e\\f").data] := by
  refine ⟨?_, ?_, rfl⟩
  · intro c h; unfold suggestionsOf; rw [h]
  · intro c
    unfold suggestionsOf
    cases profilesRegionGo c with
    | none => exact List.nodup_nil
    | some region => exact nodup_foldl_addUnique _ _ List.nodup_nil

/-- A successful load carries exactly the suggestions mined from the raw
file text. -/
theorem loadSettings_suggestions {content : List Char} {r : LoadResult}
    (h : loadSettings content = some r) : r.suggestions = suggestionsOf content := by
  unfold loadSettings at h
  cases hm : settingsMatchGo content with
  | none => simp only [hm] at h; exact Option.noConfusion h
  | some p =>
      obtain ⟨blk, tail⟩ := p
      simp only [hm] at h
      cases hj : jsonLoads (normalize blk) with
      | none => simp only [hj] at h; cases h; rfl
      | some v => cases v <;> simp only [hj] at h <;> (cases h; rfl)

/-- C8: the SuggestionSet is a function of the matched profiles region
alone — two files with the same first `"profiles": [ ... ]` region yield
the same SuggestionSet, whatever else differs and whichever decode path a
load of each takes. -/
theorem suggestions_independent_of_decode (c1 c2 : List Char)
    (h : profilesRegionGo c1 = profilesRegionGo c2) :
    suggestionsOf c1 = suggestionsOf c2 ∧
    ∀ r1 r2, loadSettings c1 = some r1 → loadSettings c2 = some r2 →
      r1.suggestions = r2.suggestions := by
  have hs : suggestionsOf c1 = suggestionsOf c2 := by unfold suggestionsOf; rw [h]
  refine ⟨hs, fun r1 r2 h1 h2 => ?_⟩
  rw [loadSettings_suggestions h1, loadSettings_suggestions h2, hs]

/-- C8 witness: a well-formed file (strict decode) and a corrupted copy
(fallback decode) share their profiles region, and the theorem yields the
same SuggestionSet for both. -/
theorem suggestions_independent_of_decode_witness :
    profilesRegionGo cleanFileInput = profilesRegionGo corruptFileInput ∧
    suggestionsOf cleanFileInput = suggestionsOf corruptFileInput ∧
    (loadSettings cleanFileInput).map LoadResult.strict = some true ∧
    (loadSettings corruptFileInput).map LoadResult.strict = some false :=
  ⟨rfl, (suggestions_independent_of_decode cleanFileInput corruptFileInput rfl).1, rfl, rfl⟩

/-- C7 witness: a file without a profiles array yields the empty
SuggestionSet. -/
theorem suggestion_mining_properties_witness :
    profilesRegionGo (("no such array").data) = none ∧
    suggestionsOf (("no such array").data) = [] :=
  ⟨rfl, suggestion_mining_properties.1 (("no such array").data) rfl⟩

/-- C4: the fallback parser classifies a trimmed value span by this
priority order: case-insensitive `true`/`false` → boolean;
case-insensitive `null`/`undefined` → null; a span wrapped in a matching
quote pair → JSON decode of the quote-normalized span, on failure the
unquoted inner text; a span bracketed by `[` and `]` → JSON decode of
the quote-normalized span, on failure the empty list; an all-digit,
optionally minus-signed span → integer; anything else → the raw span
itself. -/
theorem fallback_value_classification (v : List Char) :
    (pyLower v = ("true").data → classifyValue v = .jbool true) ∧
    (pyLower v ≠ ("true").data → pyLower v = ("false").data →
      classifyValue v = .jbool false) ∧
    (pyLower v ≠ ("true").data → pyLower v ≠ ("false").data →
      (pyLower v = ("null").data ∨ pyLower v = ("undefined").data) →
      classifyValue v = .jnull) ∧
    (pyLower v ≠ ("true").data → pyLower v ≠ ("false").data →
      ¬(pyLower v = ("null").data ∨ pyLower v = ("undefined").data) →
      ((headIs '"' v && lastIs '"' v) || (headIs '\'' v && lastIs '\'' v)) = true →
      (∀ j, jsonLoads (replaceQuotes v) = some j → classifyValue v = j) ∧
      (jsonLoads (replaceQuotes v) = none →
        classifyValue v = .jstr (String.mk (v.drop 1).dropLast))) ∧
    (pyLower v ≠ ("true").data → pyLower v ≠ ("false").data →
      ¬(pyLower v = ("null").data ∨ pyLower v = ("undefined").data) →
      ((headIs '"' v && lastIs '"' v) || (headIs '\'' v && lastIs '\'' v)) = false →
      (headIs '[' v && lastIs ']' v) = true →
      (∀ j, jsonLoads (replaceQuotes v) = some j → classifyValue v = j) ∧
      (jsonLoads (replaceQuotes v) = none → classifyValue v = .jarr [])) ∧
    (pyLower v ≠ ("true").data → pyLower v ≠ ("false").data →
      ¬(pyLower v = ("null").data ∨ pyLower v = ("undefined").data) →
      ((headIs '"' v && lastIs '"' v) || (headIs '\'' v && lastIs '\'' v)) = false →
      (headIs '[' v && lastIs ']' v) = false →
      (isDigitStr v || (headIs '-' v && isDigitStr (v.drop 1))) = true →
      classifyValue v = .jint (if headIs '-' v then
        -(Int.ofNat (natOfDigits (v.drop 1))) else Int.ofNat (natOfDigits v))) ∧
    (pyLower v ≠ ("true").data → pyLower v ≠ ("false").data →
      ¬(pyLower v = ("null").data ∨ pyLower v = ("undefined").data) →
      ((headIs '"' v && lastIs '"' v) || (headIs '\'' v && lastIs '\'' v)) = false →
      (headIs '[' v && lastIs ']' v) = false →
      (isDigitStr v || (headIs '-' v && isDigitStr (v.drop 1))) = false →
      classifyValue v = .jstr (String.mk v)) := by
  unfold classifyValue
  refine ⟨?_, ?_, ?_, ?_, ?_, ?_, ?_⟩
  · intro h1; rw [if_pos h1]
  · intro h1 h2; rw [if_neg h1, if_pos h2]
  · intro h1 h2 h3; rw [if_neg h1, if_neg h2, if_pos h3]
  · intro h1 h2 h3 h4
    rw [if_neg h1, if_neg h2, if_neg h3, if_pos h4]
    exact ⟨fun j hj => by rw [hj], fun hj => by rw [hj]⟩
  · intro h1 h2 h3 h4 h5
    rw [if_neg h1, if_neg h2, if_neg h3, if_neg (by rw [h4]; exact Bool.false_ne_true), if_pos h5]
    exact ⟨fun j hj => by rw [hj], fun hj => by rw [hj]⟩
  · intro h1 h2 h3 h4 h5 h6
    rw [if_neg h1, if_neg h2, if_neg h3, if_neg (by rw [h4]; exact Bool.false_ne_true), if_neg (by rw [h5]; exact Bool.false_ne_true),
      if_pos h6]
  · intro h1 h2 h3 h4 h5 h6
    rw [if_neg h1, if_neg h2, if_neg h3, if_neg (by rw [h4]; exact Bool.false_ne_true), if_neg (by rw [h5]; exact Bool.false_ne_true),
      if_neg (by rw [h6]; exact Bool.false_ne_true)]

/-- C4 witness: one concrete span per classification branch. -/
theorem fallback_value_classification_witness :
    classifyValue (("True").data) = .jbool true ∧
    classifyValue (("FALSE").data) = .jbool false ∧
    classifyValue (("undefined").data) = .jnull ∧
    classifyValue (("'abc'").data) = .jstr "abc" ∧
    classifyValue (("\"a\"b\"").data) = .jstr "a\"b" ∧
    classifyValue (("['x', 'y']").data) = .jarr [.jstr "x", .jstr "y"] ∧
    classifyValue (("[oops").data ++ (("]").data)) = .jarr [] ∧
    classifyValue (("-25565").data) = .jint (-25565) ∧
    classifyValue (("bare words").data) = .jstr "bare words" :=
  ⟨(fallback_value_classification _).1 (by rfl),
   (fallback_value_classification _).2.1 (by decide) (by rfl),
   (fallback_value_classification _).2.2.1 (by decide) (by decide) (Or.inr (by rfl)),
   ((fallback_value_classification _).2.2.2.1 (by decide) (by decide) (by decide)
     (by rfl)).1 _ (by rfl),
   ((fallback_value_classification _).2.2.2.1 (by decide) (by decide) (by decide)
     (by rfl)).2 (by rfl),
   ((fallback_value_classification _).2.2.2.2.1 (by decide) (by decide) (by decide)
     (by rfl) (by rfl)).1 _ (by rfl),
   ((fallback_value_classification _).2.2.2.2.1 (by decide) (by decide) (by decide)
     (by rfl) (by rfl)).2 (by rfl),
   (fallback_value_classification _).2.2.2.2.2.1 (by decide) (by decide) (by decide)
     (by rfl) (by rfl) (by rfl),
   (fallback_value_classification _).2.2.2.2.2.2 (by decide) (by decide) (by decide)
     (by rfl) (by rfl) (by rfl)⟩

/-! ## Substring and strip lemmas for the suffix invariant -/

theorem charOfNat_toNat {n : Nat} (h : Nat.isValidChar n) : (Char.ofNat n).toNat = n := by
  unfold Char.ofNat
  rw [dif_pos h]
  unfold Char.ofNatAux Char.toNat
  exact BitVec.toNat_ofNatLt _ _

theorem isPyWs_toNat {c : Char} (h : isPyWs c = true) : c.toNat ≤ 32 := by
  unfold isPyWs at h
  simp only [Bool.or_eq_true, decide_eq_true_eq] at h
  rcases h with ((((h | h) | h) | h) | h) | h <;> subst h <;> decide

theorem isPyWs_lowerChar (c : Char) : isPyWs (lowerChar c) = isPyWs c := by
  unfold lowerChar
  split
  · next h =>
      have hv : (Char.ofNat (c.toNat + 32)).toNat = c.toNat + 32 :=
        charOfNat_toNat (Or.inl (by omega))
      have h1 : isPyWs (Char.ofNat (c.toNat + 32)) = false := by
        cases hws : isPyWs (Char.ofNat (c.toNat + 32)) with
        | false => rfl
        | true => exact absurd (isPyWs_toNat hws) (by rw [hv]; omega)
      have h2 : isPyWs c = false := by
        cases hws : isPyWs c with
        | false => rfl
        | true => exact absurd (isPyWs_toNat hws) (by omega)
      rw [h1, h2]
  · rfl

theorem dropWhile_map_comm (f : Char → Char) (p : Char → Bool) (hp : ∀ c, p (f c) = p c) :
    ∀ l : List Char, (l.dropWhile p).map f = (l.map f).dropWhile p := by
  intro l
  induction l with
  | nil => rfl
  | cons c rest ih =>
      rw [List.map_cons, List.dropWhile_cons, List.dropWhile_cons, hp]
      cases p c with
      | true => simpa using ih
      | false => simp

theorem pyLower_pyStrip (l : List Char) : pyLower (pyStrip l) = pyStrip (pyLower l) := by
  unfold pyLower pyStrip
  rw [List.map_reverse, dropWhile_map_comm _ _ isPyWs_lowerChar, List.map_reverse,
    dropWhile_map_comm _ _ isPyWs_lowerChar]

theorem pyLower_append (a b : List Char) : pyLower (a ++ b) = pyLower a ++ pyLower b :=
  List.map_append _ _ _

/-- `hasSubstr` is occurrence of a factor. -/
theorem hasSubstr_iff (pat : List Char) :
    ∀ l, hasSubstr pat l = true ↔ ∃ x y, l = x ++ pat ++ y := by
  intro l
  induction l with
  | nil =>
      unfold hasSubstr
      simp only [List.isEmpty_iff]
      constructor
      · intro h; exact ⟨[], [], by simp [h]⟩
      · rintro ⟨x, y, hxy⟩
        rcases List.append_eq_nil.mp (List.append_eq_nil.mp hxy.symm).1 with ⟨_, h1⟩
        exact h1
  | cons c rest ih =>
      unfold hasSubstr
      simp only [Bool.or_eq_true]
      constructor
      · rintro (hpre | hsub)
        · obtain ⟨t, ht⟩ := List.isPrefixOf_iff_prefix.mp hpre
          exact ⟨[], t, by simp [← ht]⟩
        · obtain ⟨x, y, hxy⟩ := ih.mp hsub
          exact ⟨c :: x, y, by simp [hxy]⟩
      · rintro ⟨x, y, hxy⟩
        cases x with
        | nil =>
            left
            exact List.isPrefixOf_iff_prefix.mpr ⟨y, by simpa using hxy.symm⟩
        | cons x0 xs =>
            right
            injection hxy with h1 h2
            exact ih.mpr ⟨xs, y, h2⟩

theorem hasSubstr_append_right (pat b : List Char) (h : hasSubstr pat b = true)
    (a : List Char) : hasSubstr pat (a ++ b) = true := by
  obtain ⟨x, y, hxy⟩ := (hasSubstr_iff pat b).mp h
  exact (hasSubstr_iff pat _).mpr ⟨a ++ x, y, by simp [hxy]⟩

theorem hasSubstr_reverse (pat l : List Char) (h : hasSubstr pat l = true) :
    hasSubstr pat.reverse l.reverse = true := by
  obtain ⟨x, y, hxy⟩ := (hasSubstr_iff pat l).mp h
  exact (hasSubstr_iff _ _).mpr ⟨y.reverse, x.reverse, by simp [hxy]⟩

theorem hasSubstr_dropWhile (p0 : Char) (pr l : List Char) (hp0 : isPyWs p0 = false)
    (h : hasSubstr (p0 :: pr) l = true) :
    hasSubstr (p0 :: pr) (l.dropWhile isPyWs) = true := by
  obtain ⟨x, y, hxy⟩ := (hasSubstr_iff _ l).mp h
  subst hxy
  clear h
  rw [List.append_assoc]
  induction x with
  | nil =>
      rw [List.nil_append, List.cons_append, List.dropWhile_cons, hp0]
      simp only [Bool.false_eq_true, if_false]
      exact (hasSubstr_iff _ _).mpr ⟨[], y, by simp⟩
  | cons c xs ih =>
      rw [List.cons_append, List.dropWhile_cons]
      cases hc : isPyWs c with
      | true => simpa using ih
      | false =>
          simp only [Bool.false_eq_true, if_false]
          exact (hasSubstr_iff _ _).mpr ⟨c :: xs, y, by simp⟩

/-- An occurrence of the export marker (whose first and last characters
are not whitespace) survives `str.strip`. -/
theorem marker_survives_strip (l : List Char)
    (h : hasSubstr exportMarker l = true) :
    hasSubstr exportMarker (pyStrip l) = true := by
  unfold pyStrip
  have h1 : hasSubstr exportMarker (l.dropWhile isPyWs) = true :=
    hasSubstr_dropWhile 'e' (("xport default settings").data) l (by decide) h
  have h2 : hasSubstr exportMarker.reverse (l.dropWhile isPyWs).reverse = true :=
    hasSubstr_reverse _ _ h1
  have h3 : hasSubstr ('s' :: ("gnittes tluafed tropxe").data)
      ((l.dropWhile isPyWs).reverse.dropWhile isPyWs) = true :=
    hasSubstr_dropWhile 's' (("gnittes tluafed tropxe").data)
      (l.dropWhile isPyWs).reverse (by decide) h2
  have h4 := hasSubstr_reverse _ _ h3
  simpa using h4

/-- C9 part 1: whatever the captured tail, the computed suffix contains
`export default settings` case-insensitively. -/
theorem computeSuffix_contains_marker (tail : List Char) :
    hasSubstr exportMarker (pyLower (computeSuffix tail)) = true := by
  simp only [computeSuffix]
  cases hs : hasSubstr exportMarker (pyLower (pyStrip tail)) with
  | true => simp [hs]
  | false =>
      cases ht : hasSubstr exportMarker (pyLower tail) with
      | false =>
          simp only [hs, ht, Bool.not_false, Bool.true_and, if_true]
          rw [pyLower_append, pyLower_append]
          exact hasSubstr_append_right _ _ (by decide) _
      | true =>
          exfalso
          have hss := marker_survives_strip (pyLower tail) ht
          rw [← pyLower_pyStrip, hs] at hss
          exact Bool.false_ne_true hss

/-- C9 part 2: when the stripped tail already contains the marker, the
suffix is exactly the stripped tail (nothing is appended). -/
theorem computeSuffix_id_of_marker (tail : List Char)
    (h : hasSubstr exportMarker (pyLower (pyStrip tail)) = true) :
    computeSuffix tail = pyStrip tail := by
  simp only [computeSuffix]
  simp [h]

/-- A successful load stores `computeSuffix` of the captured tail. -/
theorem loadSettings_suffix {content : List Char} {r : LoadResult} {blk tail : List Char}
    (h : loadSettings content = some r) (hm : settingsMatchGo content = some (blk, tail)) :
    r.suffix = computeSuffix tail := by
  unfold loadSettings at h
  simp only [hm] at h
  cases hj : jsonLoads (normalize blk) with
  | none => simp only [hj] at h; cases h; rfl
  | some v => cases v <;> simp only [hj] at h <;> (cases h; rfl)

/-- C9: after every successful load the stored file suffix contains
`export default settings` case-insensitively — the load appends
`export default settings;` when the marker is absent from the captured
tail, and keeps the stripped tail unchanged when it is already there. -/
theorem load_suffix_has_export_marker (content : List Char) (r : LoadResult)
    (h : loadSettings content = some r) :
    (∀ blk tail, settingsMatchGo content = some (blk, tail) →
      hasSubstr exportMarker (pyLower r.suffix) = true ∧
      (hasSubstr exportMarker (pyLower (pyStrip tail)) = true →
        r.suffix = pyStrip tail)) := by
  intro blk tail hm
  rw [loadSettings_suffix h hm]
  exact ⟨computeSuffix_contains_marker tail, computeSuffix_id_of_marker tail⟩

/-- C9 witness: a file without the marker gets `export default settings;`
appended; a file already carrying it keeps its stripped tail unchanged. -/
theorem load_suffix_has_export_marker_witness :
    loadSettings nanFileInput =
      some ⟨[("a", JVal.jstr "NaN")], ("\nexport default settings;").data, true, []⟩ ∧
    hasSubstr exportMarker (pyLower (("\nexport default settings;").data)) = true ∧
    LoadResult.suffix ⟨[("a", JVal.jint 1)], ("export default settings;").data, true, []⟩ =
      pyStrip (("export default settings;\n").data) :=
  ⟨rfl,
   ((load_suffix_has_export_marker nanFileInput
      ⟨[("a", JVal.jstr "NaN")], ("\nexport default settings;").data, true, []⟩ rfl)
      (("\x7ba: NaN\x7d").data) [] rfl).1,
   ((load_suffix_has_export_marker markerFileInput
      ⟨[("a", JVal.jint 1)], ("export default settings;").data, true, []⟩ rfl)
      (("\x7ba: 1\x7d").data) (("export default settings;\n").data) rfl).2 (by decide)⟩

/-! ## Sorting lemmas for the serializer -/

theorem char_eq_of_toNat {a b : Char} (h : a.toNat = b.toNat) : a = b := by
  rw [← Char.ofNat_toNat a, ← Char.ofNat_toNat b, h]

theorem lexLe_refl (a : List Char) : lexLe a a = true := by
  induction a with
  | nil => rfl
  | cons x xs ih => unfold lexLe; rw [if_neg (by omega), if_neg (by omega)]; exact ih

theorem lexLe_total (a b : List Char) : lexLe a b = true ∨ lexLe b a = true := by
  induction a generalizing b with
  | nil => left; rfl
  | cons x xs ih =>
      cases b with
      | nil => right; rfl
      | cons y ys =>
          unfold lexLe
          rcases Nat.lt_trichotomy x.toNat y.toNat with h | h | h
          · left; rw [if_pos h]
          · rw [if_neg (by omega), if_neg (by omega), if_neg (by omega), if_neg (by omega)]
            exact ih ys
          · right; rw [if_pos h]

theorem lexLe_trans {a b c : List Char} (h1 : lexLe a b = true) (h2 : lexLe b c = true) :
    lexLe a c = true := by
  induction a generalizing b c with
  | nil => rfl
  | cons x xs ih =>
      cases b with
      | nil => exact absurd h1 (by unfold lexLe; simp)
      | cons y ys =>
          cases c with
          | nil => exact absurd h2 (by unfold lexLe; simp)
          | cons z zs =>
              unfold lexLe at h1 h2 ⊢
              split_ifs at h1 h2 ⊢ with ha hb hc hd he hf <;>
                first
                | rfl
                | omega
                | (exact absurd h1 Bool.false_ne_true)
                | (exact absurd h2 Bool.false_ne_true)
                | (exact ih h1 h2)

theorem lexLe_antisymm {a b : List Char} (h1 : lexLe a b = true)
    (h2 : lexLe b a = true) : a = b := by
  induction a generalizing b with
  | nil =>
      cases b with
      | nil => rfl
      | cons y ys => exact absurd h2 (by unfold lexLe; simp)
  | cons x xs ih =>
      cases b with
      | nil => exact absurd h1 (by unfold lexLe; simp)
      | cons y ys =>
          unfold lexLe at h1 h2
          split_ifs at h1 h2 with ha hb hc <;>
            first
            | omega
            | (exact absurd h1 Bool.false_ne_true)
            | (exact absurd h2 Bool.false_ne_true)
            | (exact congrArg₂ (· :: ·) (char_eq_of_toNat (by omega)) (ih h1 h2))

/-- Sorting entries is invariant under permutation when the keys are
distinct: the sorted outputs coincide. -/
theorem sortEntries_perm_eq (m1 m2 : List (String × JVal)) (hperm : m1.Perm m2)
    (hnd : (m1.map Prod.fst).Nodup) : sortEntries m1 = sortEntries m2 := by
  haveI htot : IsTotal (String × JVal) entryLe := ⟨fun a b => lexLe_total a.1.data b.1.data⟩
  haveI htr : IsTrans (String × JVal) entryLe := ⟨fun _ _ _ => lexLe_trans⟩
  have hs1 : List.Sorted entryLe (sortEntries m1) := List.sorted_insertionSort entryLe m1
  have hs2 : List.Sorted entryLe (sortEntries m2) := List.sorted_insertionSort entryLe m2
  have hp1 : (sortEntries m1).Perm m1 := List.perm_insertionSort entryLe m1
  have hp2 : (sortEntries m2).Perm m2 := List.perm_insertionSort entryLe m2
  have hkeys1 : List.Pairwise (fun a b : String × JVal => a.1 ≠ b.1) m1 := by
    rw [List.Nodup, List.pairwise_map] at hnd
    exact hnd
  have hsym : ∀ {x y : String × JVal}, x.1 ≠ y.1 → y.1 ≠ x.1 := fun h => h.symm
  have hk1 : List.Pairwise (fun a b : String × JVal => a.1 ≠ b.1) (sortEntries m1) :=
    (hp1.pairwise_iff hsym).mpr hkeys1
  have hk2 : List.Pairwise (fun a b : String × JVal => a.1 ≠ b.1) (sortEntries m2) :=
    (hp2.pairwise_iff hsym).mpr ((hperm.pairwise_iff hsym).mp hkeys1)
  haveI : IsAntisymm (String × JVal) (fun a b => entryLe a b ∧ a.1 ≠ b.1) := by
    constructor
    intro a b h1 h2
    exact absurd (congrArg String.mk (lexLe_antisymm h1.1 h2.1)) (by simpa using h1.2)
  refine List.eq_of_perm_of_sorted (r := fun a b => entryLe a b ∧ a.1 ≠ b.1)
    (hp1.trans (hperm.trans hp2.symm)) ?_ ?_
  · exact hs1.and hk1
  · exact hs2.and hk2

/-- C5: the serializer emits keys sorted lexicographically ascending
regardless of input order (permuting a distinct-key document does not
change the output), each entry rendered `"key": <value>` with 4-space
indentation inside a `{\n ... \n}` frame, final text
`const settings = <object>;<suffix>` with a newline prefixed to a suffix
that does not start with one; `{zeta: 1, alpha: "x"}` serializes with
`alpha` before `zeta`. -/
theorem serializer_sorts_keys :
    (∀ (m1 m2 : List (String × JVal)) (suffix : List Char), m1.Perm m2 →
      (m1.map Prod.fst).Nodup → serializeDoc m1 suffix = serializeDoc m2 suffix) ∧
    String.mk (serializeDoc [("zeta", .jint 1), ("alpha", .jstr "x")]
        (("\nexport default settings;").data)) =
      "const settings = \x7b\n    \"alpha\": \"x\",\n    \"zeta\": 1\n\x7d;\nexport default settings;" ∧
    String.mk (serializeDoc [("zeta", .jint 1), ("alpha", .jstr "x")] (("tail").data)) =
      "const settings = \x7b\n    \"alpha\": \"x\",\n    \"zeta\": 1\n\x7d;\ntail" := by
  refine ⟨fun m1 m2 suffix hperm hnd => ?_, rfl, rfl⟩
  unfold serializeDoc
  rw [sortEntries_perm_eq m1 m2 hperm hnd]

/-- C5 witness: swapping the two entries of the example document leaves
the serialized text unchanged. -/
theorem serializer_sorts_keys_witness :
    serializeDoc [("zeta", JVal.jint 1), ("alpha", JVal.jstr "x")] [] =
      serializeDoc [("alpha", JVal.jstr "x"), ("zeta", JVal.jint 1)] [] :=
  serializer_sorts_keys.1 _ _ [] (List.Perm.swap _ _ _) (by decide)

/-! ## The redundancy of the second key-quoting pass -/

theorem length_dropWhile_le (p : Char → Bool) (l : List Char) :
    (l.dropWhile p).length ≤ l.length := by
  induction l with
  | nil => simp
  | cons a l ih => rw [List.dropWhile_cons]; split <;> simp <;> omega

theorem bracket_props {ct : Bool} {c : Char} (h : isQkBracket ct c = true) :
    isPyWs c = false ∧ isIdentStart c = false := by
  unfold isQkBracket at h
  simp only [Bool.or_eq_true, Bool.and_eq_true, decide_eq_true_eq] at h
  rcases h with h | ⟨_, h⟩ <;> subst h <;> exact ⟨rfl, rfl⟩

theorem pyWs_not_bracket {c : Char} (h : isPyWs c = true) (ct : Bool) :
    isQkBracket ct c = false := by
  cases hb : isQkBracket ct c with
  | false => rfl
  | true => rw [(bracket_props hb).1] at h; exact absurd h Bool.false_ne_true

theorem wordChar_not_bracket {c : Char} (h : isWordChar c = true) (ct : Bool) :
    isQkBracket ct c = false := by
  cases hb : isQkBracket ct c with
  | false => rfl
  | true =>
      unfold isQkBracket at hb
      simp only [Bool.or_eq_true, Bool.and_eq_true, decide_eq_true_eq] at hb
      rcases hb with hb | ⟨_, hb⟩ <;> subst hb <;> exact absurd h (by decide)

theorem identStart_not_bracket {c : Char} (h : isIdentStart c = true) (ct : Bool) :
    isQkBracket ct c = false := by
  cases hb : isQkBracket ct c with
  | false => rfl
  | true => rw [(bracket_props hb).2] at h; exact absurd h Bool.false_ne_true

theorem dropWhile_append_all {p : Char → Bool} :
    ∀ {m : List Char}, (∀ x ∈ m, p x = true) → ∀ r, (m ++ r).dropWhile p = r.dropWhile p := by
  intro m
  induction m with
  | nil => intro _ r; rfl
  | cons a m ih =>
      intro hm r
      rw [List.cons_append, List.dropWhile_cons, hm a (List.mem_cons_self a m)]
      exact ih (fun x hx => hm x (List.mem_cons_of_mem a hx)) r

theorem tryKey_length {l ws id after : List Char}
    (h : tryKey l = some (ws, id, after)) : after.length < l.length := by
  unfold tryKey at h
  cases hd : l.dropWhile isPyWs with
  | nil => simp only [hd] at h; exact Option.noConfusion h
  | cons c r2 =>
      simp only [hd] at h
      by_cases hc : isIdentStart c = true
      · rw [if_pos hc] at h
        cases hr : (r2.dropWhile isWordChar).dropWhile isPyWs with
        | nil => simp only [hr] at h; exact Option.noConfusion h
        | cons d after2 =>
            simp only [hr] at h
            by_cases hdc : d = ':'
            · rw [if_pos hdc] at h
              have hlen1 : (c :: r2).length ≤ l.length := hd ▸ length_dropWhile_le _ _
              have hlen2 : (d :: after2).length ≤ r2.length := by
                calc (d :: after2).length
                    = ((r2.dropWhile isWordChar).dropWhile isPyWs).length := by rw [hr]
                  _ ≤ (r2.dropWhile isWordChar).length := length_dropWhile_le _ _
                  _ ≤ r2.length := length_dropWhile_le _ _
              cases h
              simp only [List.length_cons] at hlen1 hlen2
              omega
            · rw [if_neg hdc] at h
              exact Option.noConfusion h
      · rw [if_neg hc] at h
        exact Option.noConfusion h

theorem tryKey_decomp {l ws id after : List Char}
    (h : tryKey l = some (ws, id, after)) :
    (∀ x ∈ ws, isPyWs x = true) ∧
    (∃ c idTail, id = c :: idTail ∧ isIdentStart c = true ∧
      ∀ x ∈ idTail, isWordChar x = true) := by
  unfold tryKey at h
  cases hd : l.dropWhile isPyWs with
  | nil => simp only [hd] at h; exact Option.noConfusion h
  | cons c r2 =>
      simp only [hd] at h
      by_cases hc : isIdentStart c = true
      · rw [if_pos hc] at h
        cases hr : (r2.dropWhile isWordChar).dropWhile isPyWs with
        | nil => simp only [hr] at h; exact Option.noConfusion h
        | cons d after2 =>
            simp only [hr] at h
            by_cases hdc : d = ':'
            · rw [if_pos hdc] at h
              cases h
              refine ⟨fun x hx => List.mem_takeWhile_imp hx, c, r2.takeWhile isWordChar,
                rfl, hc, fun x hx => List.mem_takeWhile_imp hx⟩
            · rw [if_neg hdc] at h
              exact Option.noConfusion h
      · rw [if_neg hc] at h
        exact Option.noConfusion h

theorem qkF_congr (ct : Bool) :
    ∀ f1 f2 (l : List Char), l.length ≤ f1 → l.length ≤ f2 →
      qkF ct f1 l = qkF ct f2 l := by
  intro f1
  induction f1 with
  | zero =>
      intro f2 l h1 _
      have : l = [] := List.eq_nil_of_length_eq_zero (Nat.le_zero.mp h1)
      subst this
      cases f2 <;> rfl
  | succ f ih =>
      intro f2 l h1 h2
      cases l with
      | nil => cases f2 <;> rfl
      | cons c rest =>
          cases f2 with
          | zero => simp at h2
          | succ g =>
              simp only [List.length_cons] at h1 h2
              by_cases hb : isQkBracket ct c = true
              · cases ht : tryKey rest with
                | some p =>
                    obtain ⟨ws, id, after⟩ := p
                    have hlen := tryKey_length ht
                    simp only [qkF, hb, if_true, ht]
                    rw [ih g after (by omega) (by omega)]
                | none =>
                    simp only [qkF, hb, if_true, ht]
                    rw [ih g rest (by omega) (by omega)]
              · simp only [qkF, hb, Bool.false_eq_true, if_false]
                rw [ih g rest (by omega) (by omega)]

/-! Unfolding equations for `quoteKeys` (independent of the internal fuel). -/

theorem quoteKeys_nil (ct : Bool) : quoteKeys ct [] = [] := rfl

theorem quoteKeys_cons_nb {ct : Bool} {c : Char} (hb : isQkBracket ct c = false)
    (r : List Char) : quoteKeys ct (c :: r) = c :: quoteKeys ct r := by
  unfold quoteKeys
  simp only [List.length_cons, qkF, hb, Bool.false_eq_true, if_false]

theorem quoteKeys_cons_b_none {t : Bool} {c : Char} (hb : isQkBracket t c = true)
    {r : List Char} (ht : tryKey r = none) :
    quoteKeys t (c :: r) = c :: quoteKeys t r := by
  unfold quoteKeys
  simp only [List.length_cons, qkF, hb, if_true, ht]

theorem quoteKeys_cons_b_some {ct : Bool} {c : Char} (hb : isQkBracket ct c = true)
    {r ws id after : List Char} (ht : tryKey r = some (ws, id, after)) :
    quoteKeys ct (c :: r) =
      c :: (ws ++ '"' :: (id ++ '"' :: ':' :: quoteKeys ct after)) := by
  unfold quoteKeys
  simp only [List.length_cons, qkF, hb, if_true, ht]
  have hlen := tryKey_length ht
  rw [qkF_congr ct after.length r.length after (le_refl _) (by omega)]

/-- Every `quoteKeys` output starts with the input's first character. -/
theorem quoteKeys_head (ct : Bool) (c : Char) (r : List Char) :
    ∃ t, quoteKeys ct (c :: r) = c :: t := by
  by_cases hb : isQkBracket ct c = true
  · cases ht : tryKey r with
    | some p =>
        obtain ⟨ws, id, after⟩ := p
        exact ⟨_, quoteKeys_cons_b_some hb ht⟩
    | none => exact ⟨_, quoteKeys_cons_b_none hb ht⟩
  · exact ⟨_, quoteKeys_cons_nb (Bool.not_eq_true _ ▸ hb) r⟩

/-- `quoteKeys` copies a bracket-free segment verbatim. -/
theorem quoteKeys_append {ct : Bool} :
    ∀ {m : List Char}, (∀ x ∈ m, isQkBracket ct x = false) →
      ∀ r, quoteKeys ct (m ++ r) = m ++ quoteKeys ct r := by
  intro m
  induction m with
  | nil => intro _ r; rfl
  | cons a m ih =>
      intro hm r
      rw [List.cons_append, quoteKeys_cons_nb (hm a (List.mem_cons_self a m)),
        ih (fun x hx => hm x (List.mem_cons_of_mem a hx)) r, List.cons_append]

theorem dropWhile_head_not {p : Char → Bool} :
    ∀ {l : List Char} {c : Char} {r : List Char}, l.dropWhile p = c :: r → p c = false := by
  intro l
  induction l with
  | nil => intro c r h; exact List.noConfusion h
  | cons a l ih =>
      intro c r h
      rw [List.dropWhile_cons] at h
      split at h
      · exact ih h
      · next hp =>
          injection h with h1 _
          subst h1
          revert hp
          cases p a <;> simp

theorem tryKey_none_allws {ws : List Char} (hws : ∀ x ∈ ws, isPyWs x = true) :
    tryKey ws = none := by
  unfold tryKey
  rw [← List.append_nil ws, dropWhile_append_all hws]
  rfl

/-- `tryKey` fails on whitespace followed by a non-identifier character. -/
theorem tryKey_none_head {c : Char} (hnw : isPyWs c = false) (hni : isIdentStart c = false)
    {ws : List Char} (hws : ∀ x ∈ ws, isPyWs x = true) (r : List Char) :
    tryKey (ws ++ c :: r) = none := by
  unfold tryKey
  rw [dropWhile_append_all hws, List.dropWhile_cons, hnw]
  simp only [Bool.false_eq_true, if_false, hni]

/-- `tryKey` fails on whitespace, an identifier, then no colon at the
expected place. -/
theorem tryKey_none_shape {ws mid : List Char} {c : Char}
    (hws : ∀ x ∈ ws, isPyWs x = true) (hnw : isPyWs c = false) (hci : isIdentStart c = true)
    (hfail : (mid.dropWhile isWordChar).dropWhile isPyWs = [] ∨
      ∃ d t, (mid.dropWhile isWordChar).dropWhile isPyWs = d :: t ∧ d ≠ ':') :
    tryKey (ws ++ c :: mid) = none := by
  unfold tryKey
  rw [dropWhile_append_all hws, List.dropWhile_cons, hnw]
  simp only [Bool.false_eq_true, if_false, hci, if_true]
  rcases hfail with hfail | ⟨d, t, hfail, hd⟩
  · rw [hfail]
  · simp only [hfail]
    rw [if_neg hd]

/-- A position where the key pattern does not match still does not match
after the first key-quoting pass rewrote the text to its right. -/
theorem tryKey_none_qk (ct : Bool) (l : List Char) (h : tryKey l = none) :
    tryKey (quoteKeys ct l) = none := by
  have hws : ∀ x ∈ l.takeWhile isPyWs, isPyWs x = true := fun x hx => List.mem_takeWhile_imp hx
  have hqk : quoteKeys ct l = l.takeWhile isPyWs ++ quoteKeys ct (l.dropWhile isPyWs) := by
    conv_lhs => rw [← List.takeWhile_append_dropWhile (p := isPyWs) (l := l)]
    exact quoteKeys_append (fun x hx => pyWs_not_bracket (hws x hx) ct) _
  cases hr1 : l.dropWhile isPyWs with
  | nil =>
      rw [hqk, hr1, quoteKeys_nil, List.append_nil]
      exact tryKey_none_allws hws
  | cons c r2 =>
      have hcnw : isPyWs c = false := dropWhile_head_not hr1
      by_cases hci : isIdentStart c = true
      · -- identifier head: the colon test failed for `l` and keeps failing
        have hfail : ∀ d t, (r2.dropWhile isWordChar).dropWhile isPyWs = d :: t → d ≠ ':' := by
          intro d t heq hdc
          subst hdc
          unfold tryKey at h
          simp only [hr1] at h
          rw [if_pos hci] at h
          simp only [heq] at h
          simp at h
        have hA : ∀ x ∈ r2.takeWhile isWordChar, isWordChar x = true :=
          fun x hx => List.mem_takeWhile_imp hx
        have hqk2 : quoteKeys ct r2 =
            r2.takeWhile isWordChar ++ quoteKeys ct (r2.dropWhile isWordChar) := by
          conv_lhs => rw [← List.takeWhile_append_dropWhile (p := isWordChar) (l := r2)]
          exact quoteKeys_append (fun x hx => wordChar_not_bracket (hA x hx) ct) _
        rw [hqk, hr1, quoteKeys_cons_nb (identStart_not_bracket hci ct)]
        refine tryKey_none_shape hws hcnw hci ?_
        rw [hqk2, dropWhile_append_all hA]
        cases hB : r2.dropWhile isWordChar with
        | nil => left; rw [quoteKeys_nil]; rfl
        | cons e r5 =>
            have hbnw : isWordChar e = false := dropWhile_head_not hB
            cases hpe : isPyWs e with
            | false =>
                -- the colon test position is `e` itself
                have hC : (r2.dropWhile isWordChar).dropWhile isPyWs = e :: r5 := by
                  rw [hB, List.dropWhile_cons, hpe]; simp
                obtain ⟨t2, ht2⟩ := quoteKeys_head ct e r5
                right
                refine ⟨e, t2, ?_, hfail e r5 hC⟩
                rw [ht2, List.dropWhile_cons, hbnw]
                simp only [Bool.false_eq_true, if_false, List.dropWhile_cons, hpe]
            | true =>
                -- skip the whitespace run inside the quoted output as well
                have hws2 : ∀ x ∈ r5.takeWhile isPyWs, isPyWs x = true :=
                  fun x hx => List.mem_takeWhile_imp hx
                have hqk3 : quoteKeys ct (e :: r5) =
                    e :: (r5.takeWhile isPyWs ++ quoteKeys ct (r5.dropWhile isPyWs)) := by
                  rw [quoteKeys_cons_nb (pyWs_not_bracket hpe ct)]
                  congr 1
                  conv_lhs => rw [← List.takeWhile_append_dropWhile (p := isPyWs) (l := r5)]
                  exact quoteKeys_append (fun x hx => pyWs_not_bracket (hws2 x hx) ct) _
                rw [hqk3, List.dropWhile_cons, hbnw]
                simp only [Bool.false_eq_true, if_false]
                rw [List.dropWhile_cons, hpe, if_pos rfl, dropWhile_append_all hws2]
                have hCdef : (r2.dropWhile isWordChar).dropWhile isPyWs =
                    r5.dropWhile isPyWs := by
                  rw [hB, List.dropWhile_cons, hpe, if_pos rfl]
                cases hC : r5.dropWhile isPyWs with
                | nil => left; rw [quoteKeys_nil]; rfl
                | cons f r7 =>
                    have hfnw : isPyWs f = false := dropWhile_head_not hC
                    obtain ⟨t3, ht3⟩ := quoteKeys_head ct f r7
                    right
                    refine ⟨f, t3, ?_, hfail f r7 (hCdef.trans hC)⟩
                    rw [ht3, List.dropWhile_cons, hfnw]
                    simp
      · -- non-identifier head: still a non-identifier head afterwards
        obtain ⟨t, hqh⟩ := quoteKeys_head ct c r2
        rw [hqk, hr1, hqh]
        refine tryKey_none_head hcnw ?_ hws t
        revert hci; cases isIdentStart c <;> simp

theorem quoteKeys_brace_pass_aux :
    ∀ n (l : List Char), l.length ≤ n →
      quoteKeys false (quoteKeys true l) = quoteKeys true l := by
  intro n
  induction n with
  | zero =>
      intro l hl
      have : l = [] := List.eq_nil_of_length_eq_zero (Nat.le_zero.mp hl)
      subst this
      rfl
  | succ n ih =>
      intro l hl
      cases l with
      | nil => rfl
      | cons c rest =>
          simp only [List.length_cons] at hl
          by_cases hb : isQkBracket true c = true
          · cases ht : tryKey rest with
            | some p =>
                obtain ⟨ws, id, after⟩ := p
                obtain ⟨hws, c0, idTail, hid, hc0, hidt⟩ := tryKey_decomp ht
                have hlen := tryKey_length ht
                rw [quoteKeys_cons_b_some hb ht]
                have hseg : ∀ x ∈ ws ++ '"' :: (id ++ ['"', ':']),
                    isQkBracket false x = false := by
                  intro x hx
                  simp only [List.mem_append, List.mem_cons] at hx
                  rcases hx with hx | hx | hx
                  · exact pyWs_not_bracket (hws x hx) false
                  · subst hx; decide
                  · rcases hx with hx | hx | hx | hx
                    · subst hid
                      rcases List.mem_cons.mp hx with hx | hx
                      · subst hx; exact identStart_not_bracket hc0 false
                      · exact wordChar_not_bracket (hidt x hx) false
                    · subst hx; decide
                    · subst hx; decide
                    · exact absurd hx (List.not_mem_nil x)
                have hX : quoteKeys false (ws ++ '"' :: (id ++ '"' :: ':' :: quoteKeys true after))
                    = ws ++ '"' :: (id ++ '"' :: ':' :: quoteKeys true after) := by
                  have hshape : ws ++ '"' :: (id ++ '"' :: ':' :: quoteKeys true after)
                      = (ws ++ '"' :: (id ++ ['"', ':'])) ++ quoteKeys true after := by
                    simp [List.append_assoc]
                  rw [hshape, quoteKeys_append hseg, ih after (by omega)]
                by_cases hc : c = '{'
                · subst hc
                  have htk : tryKey (ws ++ '"' :: (id ++ '"' :: ':' :: quoteKeys true after)) =
                      none := tryKey_none_head (c := '"') rfl rfl hws _
                  rw [quoteKeys_cons_b_none (by decide) htk, hX]
                · have hbf : isQkBracket false c = false := by
                    unfold isQkBracket
                    simp [hc]
                  rw [quoteKeys_cons_nb hbf, hX]
            | none =>
                rw [quoteKeys_cons_b_none hb ht]
                by_cases hc : c = '{'
                · subst hc
                  rw [quoteKeys_cons_b_none (t := false) (by decide)
                    (tryKey_none_qk true rest ht), ih rest (by omega)]
                · have hbf : isQkBracket false c = false := by
                    unfold isQkBracket
                    simp [hc]
                  rw [quoteKeys_cons_nb hbf, ih rest (by omega)]
          · have hb2 : isQkBracket true c = false := by
              revert hb; cases isQkBracket true c <;> simp
            have hbf : isQkBracket false c = false := by
              unfold isQkBracket at hb2 ⊢
              simp only [Bool.true_and] at hb2
              rcases Bool.or_eq_false_iff.mp hb2 with ⟨h1, _⟩
              rw [h1]
              simp
            rw [quoteKeys_cons_nb hb2, quoteKeys_cons_nb hbf, ih rest (by omega)]

/-- The second, brace-only key-quoting pass of the normalizer never finds
anything left to rewrite: it is the identity on the output of the first
pass. -/
theorem quoteKeys_brace_pass_redundant (l : List Char) :
    quoteKeys false (quoteKeys true l) = quoteKeys true l :=
  quoteKeys_brace_pass_aux l.length l (le_refl _)

/-- C3: the lexical normalizer is exactly the composition, in this fixed
order, of: (1) strip `//` line comments, (2) strip `/* */` block
comments, (3) `undefined` → `null`, (4) `NaN` → `"NaN"`,
(5) `Infinity` → `"Infinity"`, (6) double-quote unquoted identifier keys
preceded by `{` or `,` (allowing whitespace) and followed by `:`,
(7) `'` → `"`, (8) drop trailing commas before `}`/`]` — a pure function
of the input text.  (The source's second, brace-only key-quoting pass is
extensionally the identity, so exactly one key-quoting step remains.) -/
theorem normalizer_fixed_order (l : List Char) :
    normalize l =
      stripTrailingCommas (replaceQuotes (quoteKeys true (replaceWordToken
        (("Infinity").data) (("\"Infinity\"").data) (replaceWordToken (("NaN").data)
        (("\"NaN\"").data) (replaceWordToken (("undefined").data) (("null").data)
        (stripBlockComments (stripLineComments l))))))) := by
  simp only [normalize]
  rw [quoteKeys_brace_pass_redundant]

/-- C2, counterexample: the round-trip fails for a parse-produced document.
The file `const settings = {"a": "NaN"};` strict-decodes to the document
`[("a", jstr "NaN")]`, but loading the serializer's output of that document
yields the value string `"NaN"\n}` (the normalizer rewrites the bare token
`NaN` inside the quoted value, the strict decode then fails and the fallback
parser captures the raw span), so the per-key values differ. -/
theorem roundtrip_nan_counterexample :
    loadSettings nanFileInput =
      some (LoadResult.mk [("a", JVal.jstr "NaN")]
        (("\nexport default settings;").data) true []) ∧
    loadSettings (serializeDoc [("a", JVal.jstr "NaN")] (("\nexport default settings;").data)) =
      some (LoadResult.mk [("a", JVal.jstr ("\"NaN\"\n\x7d"))]
        (("export default settings;").data) false []) ∧
    ("NaN" : String) ≠ "\"NaN\"\n\x7d" :=
  ⟨rfl, rfl, by decide⟩


/-! ## Round-trip preliminaries: identity of the comment and quote passes
on text without slashes or apostrophes. -/

theorem safeChar_ne {c x : Char} (h : safeChar c = true) (hx : safeChar x = false) :
    c ≠ x := by
  intro he; rw [he, hx] at h; exact Bool.false_ne_true h

theorem slcGo_cons_ne {c : Char} (h : c ≠ '/') (rest : List Char) :
    slcGo false (c :: rest) = c :: slcGo false rest := by
  cases rest with
  | nil => simp [slcGo]
  | cons r0 rest2 =>
      conv_lhs => unfold slcGo
      split <;> simp_all

theorem stripLineComments_id {l : List Char} (h : ∀ c ∈ l, c ≠ '/') :
    stripLineComments l = l := by
  induction l with
  | nil => rfl
  | cons c rest ih =>
      unfold stripLineComments at *
      rw [slcGo_cons_ne (h c (List.mem_cons_self c rest)) rest,
        ih (fun x hx => h x (List.mem_cons_of_mem c hx))]

theorem sbcGo_cons_ne {c : Char} (h : c ≠ '/') (rest : List Char) :
    sbcGo none (c :: rest) = c :: sbcGo none rest := by
  cases rest with
  | nil => simp [sbcGo]
  | cons r0 rest2 =>
      conv_lhs => unfold sbcGo
      split <;> simp_all

theorem stripBlockComments_id {l : List Char} (h : ∀ c ∈ l, c ≠ '/') :
    stripBlockComments l = l := by
  induction l with
  | nil => rfl
  | cons c rest ih =>
      unfold stripBlockComments at *
      rw [sbcGo_cons_ne (h c (List.mem_cons_self c rest)) rest,
        ih (fun x hx => h x (List.mem_cons_of_mem c hx))]

theorem replaceQuotes_id {l : List Char} (h : ∀ c ∈ l, c ≠ '\'') :
    replaceQuotes l = l := by
  induction l with
  | nil => rfl
  | cons c rest ih =>
      unfold replaceQuotes at *
      simp only [List.map_cons, List.cons.injEq]
      exact ⟨by rw [if_neg (h c (List.mem_cons_self c rest))],
        ih fun x hx => h x (List.mem_cons_of_mem c hx)⟩


/-! ## Splitting the word-token substitution at non-word characters. -/

theorem rwtGo_split (t r : List Char) {c : Char} (hc : isWordChar c = false)
    (b : List Char) :
    ∀ (a acc : List Char), rwtGo t r acc (a ++ c :: b) =
      rwtGo t r acc a ++ c :: rwtGo t r [] b := by
  intro a
  induction a with
  | nil => intro acc; simp [rwtGo, hc]
  | cons a0 a2 ih =>
      intro acc
      simp only [List.cons_append, rwtGo, List.append_eq]
      by_cases hw : isWordChar a0 = true
      · rw [if_pos hw, if_pos hw, ih]
      · rw [if_neg hw, if_neg hw, ih]
        simp [List.append_assoc]

theorem replaceWordToken_split (t r : List Char) {c : Char} (hc : isWordChar c = false)
    (a b : List Char) :
    replaceWordToken t r (a ++ c :: b) =
      replaceWordToken t r a ++ c :: replaceWordToken t r b :=
  rwtGo_split t r hc b a []

theorem rwtGo_allword (t r : List Char) :
    ∀ (w acc : List Char), (∀ c ∈ w, isWordChar c = true) →
      rwtGo t r acc w = emitRun t r (w.reverse ++ acc) := by
  intro w
  induction w with
  | nil => intro acc _; simp [rwtGo]
  | cons c w2 ih =>
      intro acc hw
      simp only [rwtGo]
      rw [if_pos (hw c (List.mem_cons_self c w2)),
        ih (c :: acc) (fun x hx => hw x (List.mem_cons_of_mem c hx))]
      simp [List.reverse_cons, List.append_assoc]

theorem replaceWordToken_wordrun (t r : List Char) {w : List Char}
    (hw : ∀ c ∈ w, isWordChar c = true) (hne : w ≠ t) :
    replaceWordToken t r w = w := by
  show rwtGo t r [] w = w
  rw [rwtGo_allword t r w [] hw]
  unfold emitRun
  rw [List.append_nil, List.reverse_reverse, if_neg hne]

theorem replaceWordToken_nil (t r : List Char) (ht : t ≠ []) :
    replaceWordToken t r [] = [] := by
  show emitRun t r [] = []
  unfold emitRun
  rw [List.reverse_nil, if_neg (Ne.symm ht)]

theorem replaceWordToken_cons_nonword (t r : List Char) (ht : t ≠ []) {c : Char}
    (hc : isWordChar c = false) (b : List Char) :
    replaceWordToken t r (c :: b) = c :: replaceWordToken t r b := by
  have h2 := replaceWordToken_split t r hc [] b
  rwa [List.nil_append, replaceWordToken_nil t r ht, List.nil_append] at h2


/-! ## Facts about the decimal rendering of naturals. -/

theorem natStrAux_acc : ∀ (f n : Nat) (acc : List Char),
    natStrAux f n acc = natStrAux f n [] ++ acc := by
  intro f
  induction f with
  | zero => intro n acc; simp [natStrAux]
  | succ f ih =>
      intro n acc
      simp only [natStrAux]
      by_cases h : n < 10
      · rw [if_pos h, if_pos h]; rfl
      · rw [if_neg h, if_neg h, ih (n / 10) (Char.ofNat (48 + n % 10) :: acc),
          ih (n / 10) [Char.ofNat (48 + n % 10)], List.append_assoc]
        rfl

theorem natStrAux_fuel : ∀ (f1 f2 n : Nat) (acc : List Char), n < f1 → n < f2 →
    natStrAux f1 n acc = natStrAux f2 n acc := by
  intro f1
  induction f1 with
  | zero => intro f2 n acc h1 _; omega
  | succ f1 ih =>
      intro f2 n acc h1 h2
      cases f2 with
      | zero => omega
      | succ f2 =>
          simp only [natStrAux]
          by_cases h : n < 10
          · rw [if_pos h, if_pos h]
          · rw [if_neg h, if_neg h]
            have hd : n / 10 < n := Nat.div_lt_self (by omega) (by omega)
            exact ih f2 (n / 10) _ (by omega) (by omega)

theorem natStr_lt10 {n : Nat} (h : n < 10) : natStr n = [Char.ofNat (48 + n)] := by
  unfold natStr
  simp only [natStrAux]
  rw [if_pos h, Nat.mod_eq_of_lt h]

theorem natStr_decomp {n : Nat} (h : 10 ≤ n) :
    natStr n = natStr (n / 10) ++ [Char.ofNat (48 + n % 10)] := by
  unfold natStr
  rw [show natStrAux (n + 1) n [] = natStrAux n (n / 10) [Char.ofNat (48 + n % 10)] from by
    simp only [natStrAux]; rw [if_neg (by omega)]]
  rw [natStrAux_acc, natStrAux_fuel n (n / 10 + 1) (n / 10) []
    (Nat.div_lt_self (by omega) (by omega)) (Nat.lt_succ_self _)]

theorem natStr_digits_fuel : ∀ (f n : Nat), n < f →
    ∀ c ∈ natStr n, 48 ≤ c.toNat ∧ c.toNat ≤ 57 := by
  intro f
  induction f with
  | zero => intro n h; omega
  | succ f ih =>
      intro n hf c hc
      by_cases h : n < 10
      · rw [natStr_lt10 h] at hc
        rcases List.mem_singleton.mp hc with rfl
        rw [charOfNat_toNat (Or.inl (by omega))]
        omega
      · rw [natStr_decomp (by omega)] at hc
        rcases List.mem_append.mp hc with hc | hc
        · have hd : n / 10 < n := Nat.div_lt_self (by omega) (by omega)
          exact ih (n / 10) (by omega) c hc
        · rcases List.mem_singleton.mp hc with rfl
          rw [charOfNat_toNat (Or.inl (by omega))]
          omega

theorem natStr_digits (n : Nat) : ∀ c ∈ natStr n, 48 ≤ c.toNat ∧ c.toNat ≤ 57 :=
  natStr_digits_fuel (n + 1) n (Nat.lt_succ_self n)

theorem natStr_ne_nil (n : Nat) : natStr n ≠ [] := by
  by_cases h : n < 10
  · rw [natStr_lt10 h]; exact List.cons_ne_nil _ _
  · rw [natStr_decomp (by omega)]; simp

theorem natStr_head_fuel : ∀ (f n : Nat), n < f → n ≠ 0 →
    ∃ c t, natStr n = c :: t ∧ 49 ≤ c.toNat ∧ c.toNat ≤ 57 := by
  intro f
  induction f with
  | zero => intro n h; omega
  | succ f ih =>
      intro n hf hn
      by_cases h : n < 10
      · refine ⟨Char.ofNat (48 + n), [], natStr_lt10 h, ?_, ?_⟩ <;>
          rw [charOfNat_toNat (Or.inl (by omega))] <;> omega
      · have hd : n / 10 < n := Nat.div_lt_self (by omega) (by omega)
        obtain ⟨c, t, he, h1, h2⟩ := ih (n / 10) (by omega) (by omega)
        exact ⟨c, t ++ [Char.ofNat (48 + n % 10)], by
          rw [natStr_decomp (by omega), he]; rfl, h1, h2⟩

theorem natStr_head (n : Nat) (hn : n ≠ 0) :
    ∃ c t, natStr n = c :: t ∧ 49 ≤ c.toNat ∧ c.toNat ≤ 57 :=
  natStr_head_fuel (n + 1) n (Nat.lt_succ_self n) hn

theorem natOfDigits_append (a : List Char) (d : Char) :
    natOfDigits (a ++ [d]) = natOfDigits a * 10 + (d.toNat - 48) := by
  unfold natOfDigits
  rw [List.foldl_append]
  rfl

theorem natOfDigits_natStr_fuel : ∀ (f n : Nat), n < f →
    natOfDigits (natStr n) = n := by
  intro f
  induction f with
  | zero => intro n h; omega
  | succ f ih =>
      intro n hf
      by_cases h : n < 10
      · rw [natStr_lt10 h]
        show 0 * 10 + ((Char.ofNat (48 + n)).toNat - 48) = n
        rw [charOfNat_toNat (Or.inl (by omega))]
        omega
      · have hd : n / 10 < n := Nat.div_lt_self (by omega) (by omega)
        rw [natStr_decomp (by omega), natOfDigits_append, ih (n / 10) (by omega),
          charOfNat_toNat (Or.inl (by omega))]
        omega

theorem natOfDigits_natStr (n : Nat) : natOfDigits (natStr n) = n :=
  natOfDigits_natStr_fuel (n + 1) n (Nat.lt_succ_self n)


/-! ## Step lemmas for the trailing-comma pass. -/

theorem stc_cons_nc {c : Char} (hc : c ≠ ',') (r : List Char) :
    stripTrailingCommas (c :: r) = c :: stripTrailingCommas r := by
  unfold stripTrailingCommas
  simp only [List.length_cons, stcF]
  rw [if_neg hc]

theorem stc_cons_keep {r : List Char}
    (h : ∀ b after, r.dropWhile isPyWs = b :: after → b ≠ '\x7d' ∧ b ≠ ']') :
    stripTrailingCommas (',' :: r) = ',' :: stripTrailingCommas r := by
  unfold stripTrailingCommas
  simp only [List.length_cons, stcF]
  rw [if_pos trivial]
  cases hd : r.dropWhile isPyWs with
  | nil => rfl
  | cons b after =>
      obtain ⟨h1, h2⟩ := h b after hd
      split <;> simp_all

theorem stc_append {a : List Char} (ha : ∀ c ∈ a, c ≠ ',') (r : List Char) :
    stripTrailingCommas (a ++ r) = a ++ stripTrailingCommas r := by
  induction a with
  | nil => rfl
  | cons c a2 ih =>
      rw [List.cons_append, stc_cons_nc (ha c (List.mem_cons_self c a2)),
        ih (fun x hx => ha x (List.mem_cons_of_mem c hx)), List.cons_append]


/-! ## Characters of the serialized object text. -/

theorem safeChar_of_digitN {c : Char} (h1 : 48 ≤ c.toNat) (h2 : c.toNat ≤ 57) :
    safeChar c = true := by
  unfold safeChar
  simp only [Bool.or_eq_true, Bool.and_eq_true, decide_eq_true_eq, beq_iff_eq]
  omega

theorem safeChar_ge32 {c : Char} (h : safeChar c = true) : 32 ≤ c.toNat := by
  unfold safeChar at h
  simp only [Bool.or_eq_true, Bool.and_eq_true, decide_eq_true_eq, beq_iff_eq] at h
  omega

theorem escJson_safe {c : Char} (h : safeChar c = true) : escJson c = [c] := by
  unfold escJson
  rw [if_neg (safeChar_ne h (by decide)), if_neg (safeChar_ne h (by decide)),
    if_neg (safeChar_ne h (by decide)), if_neg (safeChar_ne h (by decide)),
    if_neg (safeChar_ne h (by decide)), if_neg (safeChar_ne h (by decide)),
    if_neg (safeChar_ne h (by decide)),
    if_neg (by have := safeChar_ge32 h; omega)]

theorem flatten_escJson {l : List Char} (h : ∀ c ∈ l, safeChar c = true) :
    (l.map escJson).flatten = l := by
  induction l with
  | nil => rfl
  | cons c rest ih =>
      rw [List.map_cons, List.flatten_cons, escJson_safe (h c (List.mem_cons_self c rest)),
        ih (fun x hx => h x (List.mem_cons_of_mem c hx))]
      rfl

theorem jdumpStr_eq {s : String} (h : ∀ c ∈ s.data, safeChar c = true) :
    jdumpStr s = '"' :: s.data ++ ['"'] := by
  unfold jdumpStr
  rw [flatten_escJson h]

theorem mem_jdumpStr {sv : String} (hsv : ∀ c ∈ sv.data, safeChar c = true) {c : Char}
    (hc : c ∈ jdumpStr sv) : safeChar c = true ∨ c = '"' := by
  rw [jdumpStr_eq hsv] at hc
  rcases List.mem_append.mp hc with hc | hc
  · rcases List.mem_cons.mp hc with rfl | hc
    · exact Or.inr rfl
    · exact Or.inl (hsv c hc)
  · rcases List.mem_singleton.mp hc with rfl
    exact Or.inr rfl

theorem elemOkB_shape {v : JVal} (h : elemOkB v = true) :
    ∃ s : String, v = .jstr s ∧ safeStrB s.data = true := by
  cases v with
  | jstr s => exact ⟨s, rfl, h⟩
  | jnull => simp [elemOkB] at h
  | jbool b => simp [elemOkB] at h
  | jint n => simp [elemOkB] at h
  | jfloat r => simp [elemOkB] at h
  | jarr xs => simp [elemOkB] at h
  | jobj mm => simp [elemOkB] at h

theorem safeStrB_chars {s : List Char} (h : safeStrB s = true) :
    ∀ c ∈ s, safeChar c = true := by
  unfold safeStrB at h
  simp only [Bool.and_eq_true] at h
  exact fun c hc => by simpa using List.all_eq_true.mp h.1 c hc

theorem safeStrB_tokFree {s : List Char} (h : safeStrB s = true) :
    replaceWordToken (("undefined").data) (("null").data) s = s ∧
    replaceWordToken (("NaN").data) (("\"NaN\"").data) s = s ∧
    replaceWordToken (("Infinity").data) (("\"Infinity\"").data) s = s := by
  unfold safeStrB tokFreeB at h
  simp only [Bool.and_eq_true, decide_eq_true_eq] at h
  exact ⟨h.2.1.1, h.2.1.2, h.2.2⟩

theorem intStr_chars (n : Int) : ∀ c ∈ intStr n, safeChar c = true := by
  intro c hc
  cases n with
  | ofNat m =>
      simp only [intStr] at hc
      obtain ⟨h1, h2⟩ := natStr_digits m c hc
      exact safeChar_of_digitN h1 h2
  | negSucc m =>
      simp only [intStr] at hc
      rcases List.mem_cons.mp hc with rfl | hc
      · decide
      · obtain ⟨h1, h2⟩ := natStr_digits (m + 1) c hc
        exact safeChar_of_digitN h1 h2

theorem jdumpsArr_chars {xs : List JVal} (hxs : ∀ v ∈ xs, elemOkB v = true) :
    ∀ c ∈ jdumpsArr xs, safeChar c = true ∨ c = '"' ∨ c = ',' := by
  induction xs with
  | nil => intro c hc; simp [jdumpsArr] at hc
  | cons v vs ih =>
      intro c hc
      obtain ⟨sv, rfl, hsv⟩ := elemOkB_shape (hxs v (List.mem_cons_self v vs))
      have hchars := safeStrB_chars hsv
      cases vs with
      | nil =>
          rw [show jdumpsArr [JVal.jstr sv] = jdumpStr sv from rfl] at hc
          rcases mem_jdumpStr hchars hc with h | h
          · exact Or.inl h
          · exact Or.inr (Or.inl h)
      | cons w ws =>
          rw [show jdumpsArr (JVal.jstr sv :: w :: ws) =
            jdumpStr sv ++ ((", ").data ++ jdumpsArr (w :: ws)) from by
              simp [jdumpsArr, jdumps, List.append_assoc]] at hc
          rcases List.mem_append.mp hc with hc2 | hc2
          · rcases mem_jdumpStr hchars hc2 with h | h
            · exact Or.inl h
            · exact Or.inr (Or.inl h)
          · rcases List.mem_append.mp hc2 with hc3 | hc3
            · rcases List.mem_cons.mp hc3 with rfl | hc4
              · exact Or.inr (Or.inr rfl)
              · rcases List.mem_singleton.mp hc4 with rfl
                exact Or.inl (by decide)
            · exact ih (fun x hx => hxs x (List.mem_cons_of_mem (JVal.jstr sv) hx)) c hc3

theorem jdumps_chars {v : JVal} (hv : safeValB v = true) :
    ∀ c ∈ jdumps v, safeChar c = true ∨ c = '"' ∨ c = ',' ∨ c = '[' ∨ c = ']' := by
  intro c hc
  cases v with
  | jnull =>
      rw [show jdumps JVal.jnull = ['n', 'u', 'l', 'l'] from rfl] at hc
      simp only [List.mem_cons, List.not_mem_nil, or_false] at hc
      rcases hc with rfl | rfl | rfl | rfl <;> exact Or.inl (by decide)
  | jbool b =>
      cases b with
      | true =>
          rw [show jdumps (JVal.jbool true) = ['t', 'r', 'u', 'e'] from rfl] at hc
          simp only [List.mem_cons, List.not_mem_nil, or_false] at hc
          rcases hc with rfl | rfl | rfl | rfl <;> exact Or.inl (by decide)
      | false =>
          rw [show jdumps (JVal.jbool false) = ['f', 'a', 'l', 's', 'e'] from rfl] at hc
          simp only [List.mem_cons, List.not_mem_nil, or_false] at hc
          rcases hc with rfl | rfl | rfl | rfl | rfl <;> exact Or.inl (by decide)
  | jint n =>
      rw [show jdumps (JVal.jint n) = intStr n from rfl] at hc
      exact Or.inl (intStr_chars n c hc)
  | jfloat r => simp [safeValB] at hv
  | jstr sv =>
      have hchars := safeStrB_chars (by simpa [safeValB] using hv)
      rw [show jdumps (JVal.jstr sv) = jdumpStr sv from rfl] at hc
      rcases mem_jdumpStr hchars hc with h | h
      · exact Or.inl h
      · exact Or.inr (Or.inl h)
  | jarr xs =>
      have hxs : ∀ x ∈ xs, elemOkB x = true := by
        intro x hx
        have h2 : xs.all elemOkB = true := by simpa [safeValB] using hv
        simpa using List.all_eq_true.mp h2 x hx
      rw [show jdumps (JVal.jarr xs) = '[' :: jdumpsArr xs ++ [']'] from rfl] at hc
      rcases List.mem_append.mp hc with hc2 | hc2
      · rcases List.mem_cons.mp hc2 with rfl | hc3
        · exact Or.inr (Or.inr (Or.inr (Or.inl rfl)))
        · rcases jdumpsArr_chars hxs c hc3 with h | h | h
          · exact Or.inl h
          · exact Or.inr (Or.inl h)
          · exact Or.inr (Or.inr (Or.inl h))
      · rcases List.mem_singleton.mp hc2 with rfl
        exact Or.inr (Or.inr (Or.inr (Or.inr rfl)))
  | jobj mm => simp [safeValB] at hv

theorem mem_joinItems {sep : List Char} {c : Char} :
    ∀ {xs : List (List Char)}, c ∈ joinItems sep xs → c ∈ sep ∨ ∃ x ∈ xs, c ∈ x := by
  intro xs
  induction xs with
  | nil => intro hc; simp [joinItems] at hc
  | cons x xs2 ih =>
      intro hc
      cases xs2 with
      | nil => exact Or.inr ⟨x, by simp, by simpa [joinItems] using hc⟩
      | cons y ys =>
          simp only [joinItems, List.append_assoc, List.mem_append] at hc
          rcases hc with hc | hc | hc
          · exact Or.inr ⟨x, by simp, hc⟩
          · exact Or.inl hc
          · rcases ih hc with h | ⟨z, hz, hcz⟩
            · exact Or.inl h
            · exact Or.inr ⟨z, List.mem_cons_of_mem x hz, hcz⟩

theorem renderEntry_chars {e : String × JVal}
    (he : safeStrB e.1.data = true ∧ safeValB e.2 = true) :
    ∀ c ∈ renderEntry e,
      safeChar c = true ∨ c = '"' ∨ c = ',' ∨ c = ':' ∨ c = '[' ∨ c = ']' := by
  intro c hc
  unfold renderEntry at hc
  simp only [List.append_assoc, List.mem_append] at hc
  rcases hc with hc | hc | hc | hc
  · simp at hc
    rcases hc with rfl | rfl
    · exact Or.inl (by decide)
    · exact Or.inr (Or.inl rfl)
  · exact Or.inl (safeStrB_chars he.1 c hc)
  · simp at hc
    rcases hc with rfl | rfl | rfl
    · exact Or.inr (Or.inl rfl)
    · exact Or.inr (Or.inr (Or.inr (Or.inl rfl)))
    · exact Or.inl (by decide)
  · rcases jdumps_chars he.2 c hc with h | h | h | h | h <;> tauto

theorem serializedEntries_chars {m : List (String × JVal)}
    (hm : ∀ e ∈ m, safeStrB e.1.data = true ∧ safeValB e.2 = true) :
    ∀ c ∈ joinItems ((",\n").data) ((sortEntries m).map renderEntry),
      safeChar c = true ∨ c = '"' ∨ c = ',' ∨ c = ':' ∨ c = '[' ∨ c = ']' ∨ c = '\n' := by
  intro c hc
  rcases mem_joinItems hc with hs | ⟨x, hx, hcx⟩
  · simp at hs
    rcases hs with rfl | rfl <;> tauto
  · rcases List.mem_map.mp hx with ⟨e, he, rfl⟩
    have hem : e ∈ m := (List.perm_insertionSort entryLe m).mem_iff.mp he
    rcases renderEntry_chars (hm e hem) c hcx with h | h | h | h | h | h <;> tauto


/-! ## The bare-token substitutions are the identity on the serialized
object text (for any token containing a non-digit and distinct from the
JSON literals; the keys and string payloads are token-free by hypothesis). -/

theorem isDigit_of_toNat {c : Char} (h1 : 48 ≤ c.toNat) (h2 : c.toNat ≤ 57) :
    c.isDigit = true := by
  unfold Char.isDigit
  simp only [Bool.and_eq_true, decide_eq_true_eq, Char.le_def]
  exact ⟨h1, h2⟩

theorem isWordChar_of_digitN {c : Char} (h1 : 48 ≤ c.toNat) (h2 : c.toNat ≤ 57) :
    isWordChar c = true := by
  unfold isWordChar
  simp [Char.isAlphanum, isDigit_of_toNat h1 h2]

theorem rtFree_natStr (t r : List Char) (hdig : ∃ c ∈ t, c.isDigit = false) (n : Nat) :
    replaceWordToken t r (natStr n) = natStr n := by
  refine replaceWordToken_wordrun t r (fun c hc => ?_) (fun he => ?_)
  · obtain ⟨h1, h2⟩ := natStr_digits n c hc
    exact isWordChar_of_digitN h1 h2
  · obtain ⟨c, hct, hcd⟩ := hdig
    rw [← he] at hct
    obtain ⟨h1, h2⟩ := natStr_digits n c hct
    rw [isDigit_of_toNat h1 h2] at hcd
    exact Bool.noConfusion hcd

theorem rtFree_intStr (t r : List Char) (ht : t ≠ [])
    (hdig : ∃ c ∈ t, c.isDigit = false) (n : Int) :
    replaceWordToken t r (intStr n) = intStr n := by
  cases n with
  | ofNat m => exact rtFree_natStr t r hdig m
  | negSucc m =>
      show replaceWordToken t r ('-' :: natStr (m + 1)) = '-' :: natStr (m + 1)
      rw [replaceWordToken_cons_nonword t r ht (by decide), rtFree_natStr t r hdig (m + 1)]

theorem rtFree_jdumpStr (t r : List Char) (ht : t ≠ []) {s : String}
    (hchars : ∀ c ∈ s.data, safeChar c = true)
    (hfree : replaceWordToken t r s.data = s.data) :
    replaceWordToken t r (jdumpStr s) = jdumpStr s := by
  rw [jdumpStr_eq hchars, replaceWordToken_split t r (by decide) ('"' :: s.data) [],
    replaceWordToken_cons_nonword t r ht (by decide), hfree, replaceWordToken_nil t r ht]

theorem rtFree_jdumpsArr (t r : List Char) (ht : t ≠ [])
    {xs : List JVal} (hxs : ∀ v ∈ xs, elemOkB v = true)
    (hfree : ∀ v ∈ xs, ∀ sv : String, v = .jstr sv →
      replaceWordToken t r sv.data = sv.data) :
    replaceWordToken t r (jdumpsArr xs) = jdumpsArr xs := by
  induction xs with
  | nil => exact replaceWordToken_nil t r ht
  | cons v vs ih =>
      obtain ⟨sv, rfl, hsv⟩ := elemOkB_shape (hxs v (List.mem_cons_self v vs))
      have hchars := safeStrB_chars hsv
      have hfv := hfree _ (List.mem_cons_self _ vs) sv rfl
      cases vs with
      | nil =>
          rw [show jdumpsArr [JVal.jstr sv] = jdumpStr sv from rfl]
          exact rtFree_jdumpStr t r ht hchars hfv
      | cons w ws =>
          rw [show jdumpsArr (JVal.jstr sv :: w :: ws) =
            jdumpStr sv ++ ',' :: (' ' :: jdumpsArr (w :: ws)) from by
              simp [jdumpsArr, jdumps, List.append_assoc]]
          rw [replaceWordToken_split t r (by decide) (jdumpStr sv) _,
            rtFree_jdumpStr t r ht hchars hfv,
            replaceWordToken_cons_nonword t r ht (by decide),
            ih (fun x hx => hxs x (List.mem_cons_of_mem _ hx))
              (fun x hx sx hsx => hfree x (List.mem_cons_of_mem _ hx) sx hsx)]

theorem rtFree_jdumps (t r : List Char) (ht : t ≠ [])
    (hnul : ("null").data ≠ t) (htru : ("true").data ≠ t) (hfls : ("false").data ≠ t)
    (hdig : ∃ c ∈ t, c.isDigit = false)
    {v : JVal} (hv : safeValB v = true)
    (hfree : ∀ s ∈ valStrs v, replaceWordToken t r s.data = s.data) :
    replaceWordToken t r (jdumps v) = jdumps v := by
  cases v with
  | jnull => exact replaceWordToken_wordrun t r (w := ("null").data) (by decide) hnul
  | jbool b =>
      cases b with
      | false => exact replaceWordToken_wordrun t r (w := ("false").data) (by decide) hfls
      | true => exact replaceWordToken_wordrun t r (w := ("true").data) (by decide) htru
  | jint n => exact rtFree_intStr t r ht hdig n
  | jfloat fr => simp [safeValB] at hv
  | jstr sv =>
      have hsv : safeStrB sv.data = true := by simpa [safeValB] using hv
      exact rtFree_jdumpStr t r ht (safeStrB_chars hsv) (hfree sv (by simp [valStrs]))
  | jarr xs =>
      have hxs : ∀ x ∈ xs, elemOkB x = true := by
        intro x hx
        have h2 : xs.all elemOkB = true := by simpa [safeValB] using hv
        simpa using List.all_eq_true.mp h2 x hx
      show replaceWordToken t r ('[' :: jdumpsArr xs ++ [']']) = _
      rw [replaceWordToken_split t r (by decide) ('[' :: jdumpsArr xs) [],
        replaceWordToken_cons_nonword t r ht (by decide),
        rtFree_jdumpsArr t r ht hxs (fun x hx sx hsx => by
          refine hfree sx ?_
          subst hsx
          simp only [valStrs, List.mem_flatMap]
          exact ⟨JVal.jstr sx, hx, by simp⟩),
        replaceWordToken_nil t r ht]
      rfl
  | jobj mm => simp [safeValB] at hv

theorem rtFree_renderEntry (t r : List Char) (ht : t ≠ [])
    (hnul : ("null").data ≠ t) (htru : ("true").data ≠ t) (hfls : ("false").data ≠ t)
    (hdig : ∃ c ∈ t, c.isDigit = false)
    {e : String × JVal} (hkey : safeValB e.2 = true)
    (hkfree : replaceWordToken t r e.1.data = e.1.data)
    (hvfree : ∀ s ∈ valStrs e.2, replaceWordToken t r s.data = s.data) :
    replaceWordToken t r (renderEntry e) = renderEntry e := by
  have hshape : renderEntry e = ' ' :: ' ' :: ' ' :: ' ' :: '"' ::
      (e.1.data ++ '"' :: ':' :: ' ' :: jdumps e.2) := by
    simp [renderEntry, List.append_assoc]
  rw [hshape,
    replaceWordToken_cons_nonword t r ht (by decide),
    replaceWordToken_cons_nonword t r ht (by decide),
    replaceWordToken_cons_nonword t r ht (by decide),
    replaceWordToken_cons_nonword t r ht (by decide),
    replaceWordToken_cons_nonword t r ht (by decide),
    replaceWordToken_split t r (by decide) e.1.data _,
    hkfree,
    replaceWordToken_cons_nonword t r ht (by decide),
    replaceWordToken_cons_nonword t r ht (by decide),
    rtFree_jdumps t r ht hnul htru hfls hdig hkey hvfree]

theorem rtFree_joinEntries (t r : List Char) (ht : t ≠ [])
    (hnul : ("null").data ≠ t) (htru : ("true").data ≠ t) (hfls : ("false").data ≠ t)
    (hdig : ∃ c ∈ t, c.isDigit = false) :
    ∀ (es : List (String × JVal)),
      (∀ e ∈ es, safeValB e.2 = true ∧
        replaceWordToken t r e.1.data = e.1.data ∧
        (∀ s ∈ valStrs e.2, replaceWordToken t r s.data = s.data)) →
      replaceWordToken t r (joinItems ((",\n").data) (es.map renderEntry)) =
        joinItems ((",\n").data) (es.map renderEntry) := by
  intro es
  induction es with
  | nil => intro _; exact replaceWordToken_nil t r ht
  | cons e es2 ih =>
      intro hes
      obtain ⟨hv, hkf, hvf⟩ := hes e (List.mem_cons_self e es2)
      cases es2 with
      | nil =>
          rw [show joinItems ((",\n").data) ([e].map renderEntry) = renderEntry e from rfl]
          exact rtFree_renderEntry t r ht hnul htru hfls hdig hv hkf hvf
      | cons e2 es3 =>
          rw [show joinItems ((",\n").data) ((e :: e2 :: es3).map renderEntry) =
            renderEntry e ++ ',' ::
              ('\n' :: joinItems ((",\n").data) ((e2 :: es3).map renderEntry)) from by
                simp [joinItems, List.append_assoc]]
          rw [replaceWordToken_split t r (by decide) (renderEntry e) _,
            rtFree_renderEntry t r ht hnul htru hfls hdig hv hkf hvf,
            replaceWordToken_cons_nonword t r ht (by decide),
            ih (fun x hx => hes x (List.mem_cons_of_mem e hx))]

theorem rtFree_obj (t r : List Char) (ht : t ≠ [])
    (hnul : ("null").data ≠ t) (htru : ("true").data ≠ t) (hfls : ("false").data ≠ t)
    (hdig : ∃ c ∈ t, c.isDigit = false)
    {es : List (String × JVal)}
    (hes : ∀ e ∈ es, safeValB e.2 = true ∧
      replaceWordToken t r e.1.data = e.1.data ∧
      (∀ s ∈ valStrs e.2, replaceWordToken t r s.data = s.data)) :
    replaceWordToken t r
        ('\x7b' :: '\n' :: (joinItems ((",\n").data) (es.map renderEntry) ++
          ['\n', '\x7d'])) =
      '\x7b' :: '\n' :: (joinItems ((",\n").data) (es.map renderEntry) ++
        ['\n', '\x7d']) := by
  rw [replaceWordToken_cons_nonword t r ht (by decide),
    replaceWordToken_cons_nonword t r ht (by decide),
    replaceWordToken_split t r (by decide)
      (joinItems ((",\n").data) (es.map renderEntry)) ['\x7d'],
    rtFree_joinEntries t r ht hnul htru hfls hdig es hes,
    replaceWordToken_cons_nonword t r ht (by decide),
    replaceWordToken_nil t r ht]


/-! ## The key-quoting pass is the identity on the serialized object. -/

theorem nb_of_safe {x : Char} (h : safeChar x = true) : isQkBracket true x = false := by
  have h1 := safeChar_ne h (by decide : safeChar '\x7b' = false)
  have h2 := safeChar_ne h (by decide : safeChar ',' = false)
  unfold isQkBracket
  simp [h1, h2]

theorem jdumpsArr_head_quote {w : JVal} (ws2 : List JVal) (hw : elemOkB w = true) :
    ∃ X, jdumpsArr (w :: ws2) = '"' :: X := by
  obtain ⟨sw, rfl, hsw⟩ := elemOkB_shape hw
  have hq := jdumpStr_eq (safeStrB_chars hsw)
  cases ws2 with
  | nil =>
      refine ⟨sw.data ++ ['"'], ?_⟩
      rw [show jdumpsArr [JVal.jstr sw] = jdumpStr sw from rfl, hq]
      simp
  | cons y ys =>
      refine ⟨sw.data ++ ('"' :: ',' :: ' ' :: jdumpsArr (y :: ys)), ?_⟩
      rw [show jdumpsArr (JVal.jstr sw :: y :: ys) =
        jdumpStr sw ++ ((", ").data ++ jdumpsArr (y :: ys)) from by
          simp [jdumpsArr, jdumps, List.append_assoc], hq]
      simp [List.append_assoc]

theorem joinEntries_head (e2 : String × JVal) (es3 : List (String × JVal)) :
    ∃ X, joinItems ((",\n").data) ((e2 :: es3).map renderEntry) =
      ' ' :: ' ' :: ' ' :: ' ' :: '"' :: X := by
  cases es3 with
  | nil =>
      refine ⟨e2.1.data ++ ('"' :: ':' :: ' ' :: jdumps e2.2), ?_⟩
      simp [joinItems, renderEntry, List.append_assoc]
  | cons e3 es4 =>
      refine ⟨e2.1.data ++ ('"' :: ':' :: ' ' :: (jdumps e2.2 ++ ',' :: '\n' ::
        joinItems ((",\n").data) ((e3 :: es4).map renderEntry))), ?_⟩
      simp [joinItems, renderEntry, List.append_assoc]

theorem tryKey_arrTail_none {w : JVal} (ws2 : List JVal) (hw : elemOkB w = true)
    (k : List Char) :
    tryKey (' ' :: (jdumpsArr (w :: ws2) ++ k)) = none := by
  obtain ⟨X, hX⟩ := jdumpsArr_head_quote ws2 hw
  rw [hX]
  have h2 : tryKey ([' '] ++ '"' :: (X ++ k)) = none :=
    tryKey_none_head (by decide) (by decide) (by decide) _
  simpa using h2

theorem tryKey_entriesTail_none (e2 : String × JVal) (es3 : List (String × JVal))
    (k : List Char) :
    tryKey ('\n' :: (joinItems ((",\n").data) ((e2 :: es3).map renderEntry) ++ k)) =
      none := by
  obtain ⟨X, hX⟩ := joinEntries_head e2 es3
  rw [hX]
  have h2 : tryKey (['\n', ' ', ' ', ' ', ' '] ++ '"' :: (X ++ k)) = none :=
    tryKey_none_head (by decide) (by decide) (by decide) _
  simpa using h2

theorem qk_jdumpsArr {xs : List JVal} (hxs : ∀ v ∈ xs, elemOkB v = true) (k : List Char) :
    quoteKeys true (jdumpsArr xs ++ ']' :: k) =
      jdumpsArr xs ++ ']' :: quoteKeys true k := by
  induction xs with
  | nil => exact quoteKeys_cons_nb (by decide) k
  | cons v vs ih =>
      obtain ⟨sv, rfl, hsv⟩ := elemOkB_shape (hxs v (List.mem_cons_self v vs))
      have hchars := safeStrB_chars hsv
      have hnbq : ∀ x ∈ jdumpStr sv, isQkBracket true x = false := by
        intro x hx
        rcases mem_jdumpStr hchars hx with h | rfl
        · exact nb_of_safe h
        · decide
      cases vs with
      | nil =>
          rw [show jdumpsArr [JVal.jstr sv] ++ ']' :: k = jdumpStr sv ++ ']' :: k from rfl,
            quoteKeys_append hnbq, quoteKeys_cons_nb (by decide)]
          rfl
      | cons w ws =>
          have hshape : jdumpsArr (JVal.jstr sv :: w :: ws) ++ ']' :: k =
              jdumpStr sv ++ ',' :: (' ' :: (jdumpsArr (w :: ws) ++ ']' :: k)) := by
            simp [jdumpsArr, jdumps, List.append_assoc]
          rw [hshape, quoteKeys_append hnbq,
            quoteKeys_cons_b_none (by decide)
              (tryKey_arrTail_none ws
                (hxs w (List.mem_cons_of_mem _ (List.mem_cons_self w ws))) (']' :: k)),
            quoteKeys_cons_nb (by decide),
            ih (fun x hx => hxs x (List.mem_cons_of_mem _ hx))]
          simp [jdumpsArr, jdumps, List.append_assoc]

theorem qk_jdumps_value {v : JVal} (hv : safeValB v = true) (k : List Char) :
    quoteKeys true (jdumps v ++ k) = jdumps v ++ quoteKeys true k := by
  cases v with
  | jnull => exact quoteKeys_append (by decide) k
  | jbool b =>
      cases b with
      | false => exact quoteKeys_append (by decide) k
      | true => exact quoteKeys_append (by decide) k
  | jint n => exact quoteKeys_append (fun x hx => nb_of_safe (intStr_chars n x hx)) k
  | jfloat fr => simp [safeValB] at hv
  | jstr sv =>
      have hchars := safeStrB_chars (by simpa [safeValB] using hv)
      refine quoteKeys_append (fun x hx => ?_) k
      rcases mem_jdumpStr hchars hx with h | rfl
      · exact nb_of_safe h
      · decide
  | jarr xs =>
      have hxs : ∀ x ∈ xs, elemOkB x = true := by
        intro x hx
        have h2 : xs.all elemOkB = true := by simpa [safeValB] using hv
        simpa using List.all_eq_true.mp h2 x hx
      have hshape : jdumps (JVal.jarr xs) ++ k = '[' :: (jdumpsArr xs ++ ']' :: k) := by
        simp [jdumps, List.append_assoc]
      rw [hshape, quoteKeys_cons_nb (by decide), qk_jdumpsArr hxs k]
      simp [jdumps, List.append_assoc]
  | jobj mm => simp [safeValB] at hv

theorem qk_joinEntries :
    ∀ (es : List (String × JVal)),
      (∀ e ∈ es, safeStrB e.1.data = true ∧ safeValB e.2 = true) →
      ∀ k, quoteKeys true (joinItems ((",\n").data) (es.map renderEntry) ++ k) =
        joinItems ((",\n").data) (es.map renderEntry) ++ quoteKeys true k := by
  intro es
  induction es with
  | nil => intro _ k; rfl
  | cons e es2 ih =>
      intro hes k
      obtain ⟨hk, hv⟩ := hes e (List.mem_cons_self e es2)
      have hmseg : ∀ x ∈ ("    \"").data ++ e.1.data ++ ("\": ").data,
          isQkBracket true x = false := by
        intro x hx
        rcases List.mem_append.mp hx with hx | hx
        · rcases List.mem_append.mp hx with hx | hx
          · simp only [List.mem_cons, List.not_mem_nil, or_false] at hx
            rcases hx with rfl | rfl | rfl | rfl | rfl <;> decide
          · exact nb_of_safe (safeStrB_chars hk x hx)
        · simp only [List.mem_cons, List.not_mem_nil, or_false] at hx
          rcases hx with rfl | rfl | rfl <;> decide
      cases es2 with
      | nil =>
          have hshape : joinItems ((",\n").data) ([e].map renderEntry) ++ k =
              (("    \"").data ++ e.1.data ++ ("\": ").data) ++ (jdumps e.2 ++ k) := by
            simp [joinItems, renderEntry, List.append_assoc]
          rw [hshape, quoteKeys_append hmseg, qk_jdumps_value hv k]
          simp [joinItems, renderEntry, List.append_assoc]
      | cons e2 es3 =>
          have hshape : joinItems ((",\n").data) ((e :: e2 :: es3).map renderEntry) ++ k =
              (("    \"").data ++ e.1.data ++ ("\": ").data) ++
                (jdumps e.2 ++ ',' :: ('\n' ::
                  (joinItems ((",\n").data) ((e2 :: es3).map renderEntry) ++ k))) := by
            simp [joinItems, renderEntry, List.append_assoc]
          rw [hshape, quoteKeys_append hmseg, qk_jdumps_value hv,
            quoteKeys_cons_b_none (by decide) (tryKey_entriesTail_none e2 es3 k),
            quoteKeys_cons_nb (by decide),
            ih (fun x hx => hes x (List.mem_cons_of_mem e hx)) k]
          simp [joinItems, renderEntry, List.append_assoc]

theorem qk_obj {es : List (String × JVal)}
    (hes : ∀ e ∈ es, safeStrB e.1.data = true ∧ safeValB e.2 = true) :
    quoteKeys true ('\x7b' :: '\n' ::
        (joinItems ((",\n").data) (es.map renderEntry) ++ ['\n', '\x7d'])) =
      '\x7b' :: '\n' ::
        (joinItems ((",\n").data) (es.map renderEntry) ++ ['\n', '\x7d']) := by
  have hcase : tryKey ('\n' :: (joinItems ((",\n").data) (es.map renderEntry) ++
      ['\n', '\x7d'])) = none := by
    cases es with
    | nil => decide
    | cons e2 es3 => exact tryKey_entriesTail_none e2 es3 ['\n', '\x7d']
  rw [quoteKeys_cons_b_none (by decide) hcase,
    quoteKeys_cons_nb (by decide),
    qk_joinEntries es hes ['\n', '\x7d'],
    show quoteKeys true ['\n', '\x7d'] = ['\n', '\x7d'] from rfl]


/-! ## The trailing-comma pass is the identity on the serialized object. -/

theorem keep_of_dropWhile_quote {r X : List Char}
    (hr : r.dropWhile isPyWs = '"' :: X) :
    ∀ b after, r.dropWhile isPyWs = b :: after → b ≠ '\x7d' ∧ b ≠ ']' := by
  intro b after heq
  rw [hr] at heq
  injection heq with h1 _
  subst h1
  exact ⟨by decide, by decide⟩

theorem dropWhile_arrTail {w : JVal} (ws2 : List JVal) (hw : elemOkB w = true)
    (k : List Char) :
    ∃ X, (' ' :: (jdumpsArr (w :: ws2) ++ k)).dropWhile isPyWs = '"' :: X := by
  obtain ⟨X, hX⟩ := jdumpsArr_head_quote ws2 hw
  refine ⟨X ++ k, ?_⟩
  rw [hX, List.dropWhile_cons, if_pos (by decide), List.cons_append,
    List.dropWhile_cons, if_neg (by decide)]

theorem dropWhile_entriesTail (e2 : String × JVal) (es3 : List (String × JVal))
    (k : List Char) :
    ∃ X, ('\n' :: (joinItems ((",\n").data) ((e2 :: es3).map renderEntry) ++
      k)).dropWhile isPyWs = '"' :: X := by
  obtain ⟨X, hX⟩ := joinEntries_head e2 es3
  refine ⟨X ++ k, ?_⟩
  rw [hX]
  simp only [List.cons_append]
  rw [List.dropWhile_cons, if_pos (by decide), List.dropWhile_cons, if_pos (by decide),
    List.dropWhile_cons, if_pos (by decide), List.dropWhile_cons, if_pos (by decide),
    List.dropWhile_cons, if_pos (by decide), List.dropWhile_cons, if_neg (by decide)]

theorem stc_jdumpsArr {xs : List JVal} (hxs : ∀ v ∈ xs, elemOkB v = true) (k : List Char) :
    stripTrailingCommas (jdumpsArr xs ++ ']' :: k) =
      jdumpsArr xs ++ ']' :: stripTrailingCommas k := by
  induction xs with
  | nil => exact stc_cons_nc (by decide) k
  | cons v vs ih =>
      obtain ⟨sv, rfl, hsv⟩ := elemOkB_shape (hxs v (List.mem_cons_self v vs))
      have hchars := safeStrB_chars hsv
      have hnc : ∀ x ∈ jdumpStr sv, x ≠ ',' := by
        intro x hx
        rcases mem_jdumpStr hchars hx with h | rfl
        · exact safeChar_ne h (by decide)
        · decide
      cases vs with
      | nil =>
          rw [show jdumpsArr [JVal.jstr sv] ++ ']' :: k = jdumpStr sv ++ ']' :: k from rfl,
            stc_append hnc, stc_cons_nc (by decide)]
          rfl
      | cons w ws =>
          have hshape : jdumpsArr (JVal.jstr sv :: w :: ws) ++ ']' :: k =
              jdumpStr sv ++ ',' :: (' ' :: (jdumpsArr (w :: ws) ++ ']' :: k)) := by
            simp [jdumpsArr, jdumps, List.append_assoc]
          obtain ⟨X, hdw⟩ := dropWhile_arrTail ws
            (hxs w (List.mem_cons_of_mem _ (List.mem_cons_self w ws))) (']' :: k)
          rw [hshape, stc_append hnc,
            stc_cons_keep (keep_of_dropWhile_quote hdw),
            stc_cons_nc (by decide),
            ih (fun x hx => hxs x (List.mem_cons_of_mem _ hx))]
          simp [jdumpsArr, jdumps, List.append_assoc]

theorem stc_jdumps_value {v : JVal} (hv : safeValB v = true) (k : List Char) :
    stripTrailingCommas (jdumps v ++ k) = jdumps v ++ stripTrailingCommas k := by
  cases v with
  | jnull => exact stc_append (by decide) k
  | jbool b =>
      cases b with
      | false => exact stc_append (by decide) k
      | true => exact stc_append (by decide) k
  | jint n =>
      exact stc_append (fun x hx => safeChar_ne (intStr_chars n x hx) (by decide)) k
  | jfloat fr => simp [safeValB] at hv
  | jstr sv =>
      have hchars := safeStrB_chars (by simpa [safeValB] using hv)
      refine stc_append (fun x hx => ?_) k
      rcases mem_jdumpStr hchars hx with h | rfl
      · exact safeChar_ne h (by decide)
      · decide
  | jarr xs =>
      have hxs : ∀ x ∈ xs, elemOkB x = true := by
        intro x hx
        have h2 : xs.all elemOkB = true := by simpa [safeValB] using hv
        simpa using List.all_eq_true.mp h2 x hx
      have hshape : jdumps (JVal.jarr xs) ++ k = '[' :: (jdumpsArr xs ++ ']' :: k) := by
        simp [jdumps, List.append_assoc]
      rw [hshape, stc_cons_nc (by decide), stc_jdumpsArr hxs k]
      simp [jdumps, List.append_assoc]
  | jobj mm => simp [safeValB] at hv

theorem stc_joinEntries :
    ∀ (es : List (String × JVal)),
      (∀ e ∈ es, safeStrB e.1.data = true ∧ safeValB e.2 = true) →
      ∀ k, stripTrailingCommas (joinItems ((",\n").data) (es.map renderEntry) ++ k) =
        joinItems ((",\n").data) (es.map renderEntry) ++ stripTrailingCommas k := by
  intro es
  induction es with
  | nil => intro _ k; rfl
  | cons e es2 ih =>
      intro hes k
      obtain ⟨hk, hv⟩ := hes e (List.mem_cons_self e es2)
      have hmseg : ∀ x ∈ ("    \"").data ++ e.1.data ++ ("\": ").data, x ≠ ',' := by
        intro x hx
        rcases List.mem_append.mp hx with hx | hx
        · rcases List.mem_append.mp hx with hx | hx
          · simp only [List.mem_cons, List.not_mem_nil, or_false] at hx
            rcases hx with rfl | rfl | rfl | rfl | rfl <;> decide
          · exact safeChar_ne (safeStrB_chars hk x hx) (by decide)
        · simp only [List.mem_cons, List.not_mem_nil, or_false] at hx
          rcases hx with rfl | rfl | rfl <;> decide
      cases es2 with
      | nil =>
          have hshape : joinItems ((",\n").data) ([e].map renderEntry) ++ k =
              (("    \"").data ++ e.1.data ++ ("\": ").data) ++ (jdumps e.2 ++ k) := by
            simp [joinItems, renderEntry, List.append_assoc]
          rw [hshape, stc_append hmseg, stc_jdumps_value hv k]
          simp [joinItems, renderEntry, List.append_assoc]
      | cons e2 es3 =>
          have hshape : joinItems ((",\n").data) ((e :: e2 :: es3).map renderEntry) ++ k =
              (("    \"").data ++ e.1.data ++ ("\": ").data) ++
                (jdumps e.2 ++ ',' :: ('\n' ::
                  (joinItems ((",\n").data) ((e2 :: es3).map renderEntry) ++ k))) := by
            simp [joinItems, renderEntry, List.append_assoc]
          obtain ⟨X, hdw⟩ := dropWhile_entriesTail e2 es3 k
          rw [hshape, stc_append hmseg, stc_jdumps_value hv,
            stc_cons_keep (keep_of_dropWhile_quote hdw),
            stc_cons_nc (by decide),
            ih (fun x hx => hes x (List.mem_cons_of_mem e hx)) k]
          simp [joinItems, renderEntry, List.append_assoc]

theorem stc_obj {es : List (String × JVal)}
    (hes : ∀ e ∈ es, safeStrB e.1.data = true ∧ safeValB e.2 = true) :
    stripTrailingCommas ('\x7b' :: '\n' ::
        (joinItems ((",\n").data) (es.map renderEntry) ++ ['\n', '\x7d'])) =
      '\x7b' :: '\n' ::
        (joinItems ((",\n").data) (es.map renderEntry) ++ ['\n', '\x7d']) := by
  rw [stc_cons_nc (by decide), stc_cons_nc (by decide),
    stc_joinEntries es hes ['\n', '\x7d'],
    show stripTrailingCommas ['\n', '\x7d'] = ['\n', '\x7d'] from rfl]


/-! ## The full normalizer is the identity on the serialized object. -/

theorem valStrs_safe {v : JVal} (hv : safeValB v = true) :
    ∀ s ∈ valStrs v, safeStrB s.data = true := by
  intro s hs
  cases v with
  | jstr sv =>
      simp only [valStrs, List.mem_singleton] at hs
      subst hs
      simpa [safeValB] using hv
  | jarr xs =>
      simp only [valStrs, List.mem_flatMap] at hs
      obtain ⟨a, ha, hsa⟩ := hs
      have h2 : xs.all elemOkB = true := by simpa [safeValB] using hv
      have h3 : elemOkB a = true := by simpa using List.all_eq_true.mp h2 a ha
      obtain ⟨sa, rfl, hsa2⟩ := elemOkB_shape h3
      simp at hsa
      subst hsa
      exact hsa2
  | jnull => simp [valStrs] at hs
  | jbool b => simp [valStrs] at hs
  | jint n => simp [valStrs] at hs
  | jfloat fr => simp [valStrs] at hs
  | jobj mm => simp [valStrs] at hs

theorem joinEntries_chars {es : List (String × JVal)}
    (hes : ∀ e ∈ es, safeStrB e.1.data = true ∧ safeValB e.2 = true) :
    ∀ c ∈ joinItems ((",\n").data) (es.map renderEntry),
      safeChar c = true ∨ c = '"' ∨ c = ',' ∨ c = ':' ∨ c = '[' ∨ c = ']' ∨ c = '\n' := by
  intro c hc
  rcases mem_joinItems hc with hs | ⟨x, hx, hcx⟩
  · simp at hs
    rcases hs with rfl | rfl
    · tauto
    · tauto
  · rcases List.mem_map.mp hx with ⟨e, he, rfl⟩
    rcases renderEntry_chars (hes e he) c hcx with h | h | h | h | h | h <;> tauto

theorem normalize_obj_id {es : List (String × JVal)}
    (hes : ∀ e ∈ es, safeStrB e.1.data = true ∧ safeValB e.2 = true) :
    normalize ('\x7b' :: '\n' ::
        (joinItems ((",\n").data) (es.map renderEntry) ++ ['\n', '\x7d'])) =
      '\x7b' :: '\n' ::
        (joinItems ((",\n").data) (es.map renderEntry) ++ ['\n', '\x7d']) := by
  have hslash : ∀ c ∈ '\x7b' :: '\n' ::
      (joinItems ((",\n").data) (es.map renderEntry) ++ ['\n', '\x7d']), c ≠ '/' := by
    intro c hc
    simp only [List.mem_cons, List.mem_append] at hc
    rcases hc with rfl | rfl | hc | hc
    · decide
    · decide
    · rcases joinEntries_chars hes c hc with h | rfl | rfl | rfl | rfl | rfl | rfl
      · exact safeChar_ne h (by decide)
      all_goals decide
    · rcases hc with rfl | rfl | hc
      · decide
      · decide
      · exact absurd hc (List.not_mem_nil c)
  have hapos : ∀ c ∈ '\x7b' :: '\n' ::
      (joinItems ((",\n").data) (es.map renderEntry) ++ ['\n', '\x7d']), c ≠ '\'' := by
    intro c hc
    simp only [List.mem_cons, List.mem_append] at hc
    rcases hc with rfl | rfl | hc | hc
    · decide
    · decide
    · rcases joinEntries_chars hes c hc with h | rfl | rfl | rfl | rfl | rfl | rfl
      · exact safeChar_ne h (by decide)
      all_goals decide
    · rcases hc with rfl | rfl | hc
      · decide
      · decide
      · exact absurd hc (List.not_mem_nil c)
  have hrt : ∀ (t r : List Char), t ≠ [] → ("null").data ≠ t → ("true").data ≠ t →
      ("false").data ≠ t → (∃ c ∈ t, c.isDigit = false) →
      (∀ e ∈ es, replaceWordToken t r e.1.data = e.1.data ∧
        ∀ s ∈ valStrs e.2, replaceWordToken t r s.data = s.data) →
      replaceWordToken t r ('\x7b' :: '\n' ::
          (joinItems ((",\n").data) (es.map renderEntry) ++ ['\n', '\x7d'])) =
        '\x7b' :: '\n' ::
          (joinItems ((",\n").data) (es.map renderEntry) ++ ['\n', '\x7d']) :=
    fun t r h1 h2 h3 h4 h5 h6 =>
      rtFree_obj t r h1 h2 h3 h4 h5
        (fun e he => ⟨(hes e he).2, (h6 e he).1, (h6 e he).2⟩)
  simp only [normalize]
  rw [stripLineComments_id hslash, stripBlockComments_id hslash,
    hrt _ _ (by decide) (by decide) (by decide) (by decide) (by decide)
      (fun e he => ⟨(safeStrB_tokFree (hes e he).1).1,
        fun sv hs => (safeStrB_tokFree (valStrs_safe (hes e he).2 sv hs)).1⟩),
    hrt _ _ (by decide) (by decide) (by decide) (by decide) (by decide)
      (fun e he => ⟨(safeStrB_tokFree (hes e he).1).2.1,
        fun sv hs => (safeStrB_tokFree (valStrs_safe (hes e he).2 sv hs)).2.1⟩),
    hrt _ _ (by decide) (by decide) (by decide) (by decide) (by decide)
      (fun e he => ⟨(safeStrB_tokFree (hes e he).1).2.2,
        fun sv hs => (safeStrB_tokFree (valStrs_safe (hes e he).2 sv hs)).2.2⟩),
    quoteKeys_brace_pass_redundant, qk_obj hes,
    replaceQuotes_id hapos, stc_obj hes]


/-! ## Strict-decoder correctness on the serialized text: strings. -/

theorem takeWhile_append_all {p : Char → Bool} :
    ∀ {m : List Char}, (∀ x ∈ m, p x = true) → ∀ r,
      (m ++ r).takeWhile p = m ++ r.takeWhile p := by
  intro m
  induction m with
  | nil => intro _ r; rfl
  | cons c cs ih =>
      intro h r
      rw [List.cons_append, List.takeWhile_cons_of_pos (h c (List.mem_cons_self c cs)),
        ih (fun x hx => h x (List.mem_cons_of_mem c hx)) r]
      rfl

theorem dropWhile_eq_self_of_takeWhile_nil {p : Char → Bool} {k : List Char}
    (h : k.takeWhile p = []) : k.dropWhile p = k := by
  cases k with
  | nil => rfl
  | cons c r =>
      rw [List.dropWhile_cons]
      by_cases hp : p c = true
      · rw [List.takeWhile_cons_of_pos hp] at h; exact absurd h (List.cons_ne_nil _ _)
      · simp [hp]

theorem parseStrBody_cons_lit {c : Char} (h1 : c ≠ '"') (h2 : c ≠ '\\') (h3 : 32 ≤ c.toNat)
    (rest : List Char) :
    parseStrBody (c :: rest) = (parseStrBody rest).map fun p => (c :: p.1, p.2) := by
  have h4 : ¬ (c.toNat < 32) := by omega
  conv_lhs => unfold parseStrBody
  split <;> simp_all

theorem parseStrBody_safe {s : List Char} (hs : ∀ c ∈ s, safeChar c = true)
    (k : List Char) : parseStrBody (s ++ '"' :: k) = some (s, k) := by
  induction s with
  | nil => rfl
  | cons c cs ih =>
      have hc := hs c (List.mem_cons_self c cs)
      rw [List.cons_append,
        parseStrBody_cons_lit (safeChar_ne hc (by decide)) (safeChar_ne hc (by decide))
          (safeChar_ge32 hc),
        ih (fun x hx => hs x (List.mem_cons_of_mem c hx))]
      rfl


/-! ## Strict-decoder correctness: numbers. -/

theorem headIs_cons (x c : Char) (l : List Char) : headIs x (c :: l) = decide (c = x) := rfl

theorem parseNumber_zero {k : List Char} (hk2 : headIs '.' k = false)
    (hk3 : headIs 'e' k = false) (hk4 : headIs 'E' k = false) :
    parseNumber ('0' :: k) = some (.jint 0, k) := by
  simp [parseNumber, headIs_cons, hk2, hk3, hk4, natOfDigits]

theorem parseNumber_pos {c : Char} {t k : List Char} (hcd : c.isDigit = true)
    (hc0 : c ≠ '0') (hcm : c ≠ '-') (ht : ∀ x ∈ t, Char.isDigit x = true)
    (hk1 : k.takeWhile Char.isDigit = []) (hk2 : headIs '.' k = false)
    (hk3 : headIs 'e' k = false) (hk4 : headIs 'E' k = false) :
    parseNumber (c :: (t ++ k)) = some (.jint (Int.ofNat (natOfDigits (c :: t))), k) := by
  have htw : (t ++ k).takeWhile Char.isDigit = t := by
    rw [takeWhile_append_all ht, hk1, List.append_nil]
  have hdw : (t ++ k).dropWhile Char.isDigit = k := by
    rw [dropWhile_append_all ht, dropWhile_eq_self_of_takeWhile_nil hk1]
  simp [parseNumber, headIs_cons, hcm, hcd, hc0, htw, hdw, hk2, hk3, hk4, natOfDigits]

theorem parseNumber_neg {c : Char} {t k : List Char} (hcd : c.isDigit = true)
    (hc0 : c ≠ '0') (ht : ∀ x ∈ t, Char.isDigit x = true)
    (hk1 : k.takeWhile Char.isDigit = []) (hk2 : headIs '.' k = false)
    (hk3 : headIs 'e' k = false) (hk4 : headIs 'E' k = false) :
    parseNumber ('-' :: c :: (t ++ k)) =
      some (.jint (-(Int.ofNat (natOfDigits (c :: t)))), k) := by
  have htw : (t ++ k).takeWhile Char.isDigit = t := by
    rw [takeWhile_append_all ht, hk1, List.append_nil]
  have hdw : (t ++ k).dropWhile Char.isDigit = k := by
    rw [dropWhile_append_all ht, dropWhile_eq_self_of_takeWhile_nil hk1]
  simp [parseNumber, headIs_cons, hcd, hc0, htw, hdw, hk2, hk3, hk4, natOfDigits]

theorem parseNumber_natStr (n : Nat) {k : List Char}
    (hk1 : k.takeWhile Char.isDigit = []) (hk2 : headIs '.' k = false)
    (hk3 : headIs 'e' k = false) (hk4 : headIs 'E' k = false) :
    parseNumber (natStr n ++ k) = some (.jint (Int.ofNat n), k) := by
  by_cases hn : n = 0
  · subst hn
    rw [show natStr 0 = ['0'] from rfl]
    exact parseNumber_zero hk2 hk3 hk4
  · obtain ⟨c, t, hshape, h1, h2⟩ := natStr_head n hn
    have hall : ∀ x ∈ c :: t, 48 ≤ x.toNat ∧ x.toNat ≤ 57 := by
      rw [← hshape]; exact natStr_digits n
    have hcd : c.isDigit = true := isDigit_of_toNat (by omega) h2
    have hc0 : c ≠ '0' := by
      intro he; subst he; exact absurd h1 (by decide)
    have hcm : c ≠ '-' := by
      intro he; subst he; exact absurd h1 (by decide)
    have ht : ∀ x ∈ t, Char.isDigit x = true := fun x hx =>
      isDigit_of_toNat (hall x (List.mem_cons_of_mem c hx)).1 (hall x (List.mem_cons_of_mem c hx)).2
    rw [hshape, List.cons_append, parseNumber_pos hcd hc0 hcm ht hk1 hk2 hk3 hk4]
    rw [show natOfDigits (c :: t) = natOfDigits (natStr n) from by rw [hshape],
      natOfDigits_natStr]

theorem parseNumber_intStr (i : Int) {k : List Char}
    (hk1 : k.takeWhile Char.isDigit = []) (hk2 : headIs '.' k = false)
    (hk3 : headIs 'e' k = false) (hk4 : headIs 'E' k = false) :
    parseNumber (intStr i ++ k) = some (.jint i, k) := by
  cases i with
  | ofNat n => exact parseNumber_natStr n hk1 hk2 hk3 hk4
  | negSucc m =>
      have hn : m + 1 ≠ 0 := by omega
      obtain ⟨c, t, hshape, h1, h2⟩ := natStr_head (m + 1) hn
      have hall : ∀ x ∈ c :: t, 48 ≤ x.toNat ∧ x.toNat ≤ 57 := by
        rw [← hshape]; exact natStr_digits (m + 1)
      have hcd : c.isDigit = true := isDigit_of_toNat (by omega) h2
      have hc0 : c ≠ '0' := by
        intro he; subst he; exact absurd h1 (by decide)
      have ht : ∀ x ∈ t, Char.isDigit x = true := fun x hx =>
        isDigit_of_toNat (hall x (List.mem_cons_of_mem c hx)).1
          (hall x (List.mem_cons_of_mem c hx)).2
      show parseNumber (('-' :: natStr (m + 1)) ++ k) = _
      rw [List.cons_append, hshape, List.cons_append,
        parseNumber_neg hcd hc0 ht hk1 hk2 hk3 hk4,
        show natOfDigits (c :: t) = natOfDigits (natStr (m + 1)) from by rw [hshape],
        natOfDigits_natStr]
      rfl


/-! ## Strict-decoder correctness: values. -/

theorem skipJsonWs_pre {pre : List Char} (hpre : ∀ x ∈ pre, isJsonWs x = true)
    (c : Char) (hc : isJsonWs c = false) (r : List Char) :
    skipJsonWs (pre ++ c :: r) = c :: r := by
  unfold skipJsonWs
  rw [dropWhile_append_all hpre, List.dropWhile_cons_of_neg (by simp [hc])]

theorem parseF_value_null {fuel : Nat} {pre : List Char}
    (hpre : ∀ x ∈ pre, isJsonWs x = true) (k : List Char) :
    parseF (fuel + 1) .value (pre ++ (jdumps JVal.jnull ++ k)) = some (.jnull, k) := by
  rw [show jdumps JVal.jnull ++ k = 'n' :: ('u' :: 'l' :: 'l' :: k) from rfl]
  have hsw := skipJsonWs_pre hpre 'n' (by decide) ('u' :: 'l' :: 'l' :: k)
  simp [parseF, hsw]

theorem parseF_value_bool {fuel : Nat} {pre : List Char}
    (hpre : ∀ x ∈ pre, isJsonWs x = true) (b : Bool) (k : List Char) :
    parseF (fuel + 1) .value (pre ++ (jdumps (JVal.jbool b) ++ k)) =
      some (.jbool b, k) := by
  cases b with
  | true =>
      rw [show jdumps (JVal.jbool true) ++ k = 't' :: ('r' :: 'u' :: 'e' :: k) from rfl]
      have hsw := skipJsonWs_pre hpre 't' (by decide) ('r' :: 'u' :: 'e' :: k)
      simp [parseF, hsw]
  | false =>
      rw [show jdumps (JVal.jbool false) ++ k =
        'f' :: ('a' :: 'l' :: 's' :: 'e' :: k) from rfl]
      have hsw := skipJsonWs_pre hpre 'f' (by decide) ('a' :: 'l' :: 's' :: 'e' :: k)
      simp [parseF, hsw]

theorem parseF_value_str {fuel : Nat} {sv : String}
    (hs : ∀ c ∈ sv.data, safeChar c = true) {pre : List Char}
    (hpre : ∀ x ∈ pre, isJsonWs x = true) (k : List Char) :
    parseF (fuel + 1) .value (pre ++ (jdumpStr sv ++ k)) = some (.jstr sv, k) := by
  have hshape : jdumpStr sv ++ k = '"' :: (sv.data ++ '"' :: k) := by
    rw [jdumpStr_eq hs]; simp
  rw [hshape]
  have hsw := skipJsonWs_pre hpre '"' (by decide) (sv.data ++ '"' :: k)
  simp [parseF, hsw, parseStrBody_safe hs]

theorem parseF_value_int {fuel : Nat} {pre : List Char}
    (hpre : ∀ x ∈ pre, isJsonWs x = true) (n : Int) {k : List Char}
    (hk1 : k.takeWhile Char.isDigit = []) (hk2 : headIs '.' k = false)
    (hk3 : headIs 'e' k = false) (hk4 : headIs 'E' k = false) :
    parseF (fuel + 1) .value (pre ++ (jdumps (JVal.jint n) ++ k)) =
      some (.jint n, k) := by
  cases n with
  | negSucc m =>
      rw [show jdumps (JVal.jint (Int.negSucc m)) ++ k =
        '-' :: (natStr (m + 1) ++ k) from rfl]
      have hsw := skipJsonWs_pre hpre '-' (by decide) (natStr (m + 1) ++ k)
      have hpn := parseNumber_intStr (Int.negSucc m) hk1 hk2 hk3 hk4
      rw [show intStr (Int.negSucc m) ++ k = '-' :: (natStr (m + 1) ++ k) from by simp [intStr]]
        at hpn
      simp [parseF, hsw, hpn]
  | ofNat m =>
      by_cases hm : m = 0
      · subst hm
        rw [show jdumps (JVal.jint (Int.ofNat 0)) ++ k = '0' :: k from rfl]
        have hsw := skipJsonWs_pre hpre '0' (by decide) k
        simp [parseF, hsw, parseNumber_zero hk2 hk3 hk4]
      · obtain ⟨c, t, hshape, h1, h2⟩ := natStr_head m hm
        have hns : jdumps (JVal.jint (Int.ofNat m)) ++ k = c :: (t ++ k) := by
          rw [show jdumps (JVal.jint (Int.ofNat m)) = natStr m from rfl, hshape]
          simp
        rw [hns]
        have hnws : isJsonWs c = false := by
          have e1 : c ≠ ' ' := fun he => by subst he; simp at h1
          have e2 : c ≠ '\t' := fun he => by subst he; simp at h1
          have e3 : c ≠ '\n' := fun he => by subst he; simp at h1
          have e4 : c ≠ '\r' := fun he => by subst he; simp at h1
          unfold isJsonWs
          simp [e1, e2, e3, e4]
        have hsw := skipJsonWs_pre hpre c hnws (t ++ k)
        have hcd : c.isDigit = true := isDigit_of_toNat (by omega) h2
        have hne : ∀ x : Char, x.toNat < 48 ∨ 57 < x.toNat → c ≠ x := fun x hx he => by
          subst he; omega
        have hpn : parseNumber (c :: (t ++ k)) = some (.jint (Int.ofNat m), k) := by
          have h3 := parseNumber_natStr m hk1 hk2 hk3 hk4
          rw [hshape] at h3
          simpa using h3
        simp only [parseF, hsw]
        split
        all_goals simp_all


/-! ## Strict-decoder correctness: arrays. -/

theorem jdumpsArr_length_ge {xs : List JVal} (hxs : ∀ v ∈ xs, elemOkB v = true) :
    xs.length ≤ (jdumpsArr xs).length := by
  induction xs with
  | nil => simp [jdumpsArr]
  | cons v vs ih =>
      obtain ⟨sv, rfl, hsv⟩ := elemOkB_shape (hxs _ (List.mem_cons_self _ vs))
      cases vs with
      | nil => simp [jdumpsArr, jdumps, jdumpStr]
      | cons w ws =>
          have h2 := ih (fun x hx => hxs x (List.mem_cons_of_mem _ hx))
          simp [jdumpsArr, jdumps, jdumpStr] at h2 ⊢
          omega

theorem parseF_arrElems_strings :
    ∀ (xs : List JVal), (∀ v ∈ xs, elemOkB v = true) →
    ∀ (pre : List Char), (∀ x ∈ pre, isJsonWs x = true) →
    ∀ (acc : List JVal) (k : List Char) (fuel : Nat), 2 * xs.length + 2 ≤ fuel →
      xs ≠ [] →
      parseF fuel (.arrElems acc) (pre ++ (jdumpsArr xs ++ ']' :: k)) =
        some (.jarr (acc ++ xs), k) := by
  intro xs
  induction xs with
  | nil => intro _ _ _ _ _ _ _ h; exact absurd rfl h
  | cons v vs ih =>
      intro hxs pre hpre acc k fuel hf _
      obtain ⟨sv, rfl, hsv⟩ := elemOkB_shape (hxs _ (List.mem_cons_self _ vs))
      obtain ⟨f1, rfl⟩ : ∃ f1, fuel = f1 + 1 := ⟨fuel - 1, by omega⟩
      obtain ⟨f2, rfl⟩ : ∃ f2, f1 = f2 + 1 := ⟨f1 - 1, by omega⟩
      cases vs with
      | nil =>
          have hsh : pre ++ (jdumpsArr [JVal.jstr sv] ++ ']' :: k) =
              pre ++ (jdumpStr sv ++ (']' :: k)) := by simp [jdumpsArr, jdumps]
          rw [hsh, parseF, parseF_value_str (safeStrB_chars hsv) hpre (']' :: k)]
          have hsw : skipJsonWs (']' :: k) = ']' :: k :=
            List.dropWhile_cons_of_neg (by decide)
          simp [hsw]
      | cons w ws =>
          have hsh : pre ++ (jdumpsArr (JVal.jstr sv :: w :: ws) ++ ']' :: k) =
              pre ++ (jdumpStr sv ++ (',' :: ' ' ::
                (jdumpsArr (w :: ws) ++ ']' :: k))) := by
            simp [jdumpsArr, jdumps]
          rw [hsh, parseF, parseF_value_str (safeStrB_chars hsv) hpre _]
          have hsw : skipJsonWs (',' :: ' ' :: (jdumpsArr (w :: ws) ++ ']' :: k)) =
              ',' :: ' ' :: (jdumpsArr (w :: ws) ++ ']' :: k) :=
            List.dropWhile_cons_of_neg (by decide)
          have hrec := ih (fun x hx => hxs x (List.mem_cons_of_mem _ hx)) [' ']
            (by decide) (acc ++ [JVal.jstr sv]) k (f2 + 1)
            (by simp only [List.length_cons] at hf ⊢; omega) (List.cons_ne_nil w ws)
          rw [show ([' '] : List Char) ++ (jdumpsArr (w :: ws) ++ ']' :: k) =
            ' ' :: (jdumpsArr (w :: ws) ++ ']' :: k) from rfl] at hrec
          simp [hsw, hrec]

theorem parseF_value_jdump {v : JVal} (hv : safeValB v = true)
    {pre : List Char} (hpre : ∀ x ∈ pre, isJsonWs x = true)
    {k : List Char} (hk1 : k.takeWhile Char.isDigit = []) (hk2 : headIs '.' k = false)
    (hk3 : headIs 'e' k = false) (hk4 : headIs 'E' k = false)
    (fuel : Nat) (hf : 2 * (jdumps v).length + 2 ≤ fuel) :
    parseF fuel .value (pre ++ (jdumps v ++ k)) = some (v, k) := by
  obtain ⟨f1, rfl⟩ : ∃ f1, fuel = f1 + 1 := ⟨fuel - 1, by omega⟩
  cases v with
  | jnull => exact parseF_value_null hpre k
  | jbool b => exact parseF_value_bool hpre b k
  | jint n => exact parseF_value_int hpre n hk1 hk2 hk3 hk4
  | jstr sv =>
      exact parseF_value_str (safeStrB_chars (by simpa [safeValB] using hv)) hpre k
  | jfloat fr => simp [safeValB] at hv
  | jobj mm => simp [safeValB] at hv
  | jarr xs =>
      have hxs : ∀ x ∈ xs, elemOkB x = true := by
        intro x hx
        have h2 : xs.all elemOkB = true := by simpa [safeValB] using hv
        simpa using List.all_eq_true.mp h2 x hx
      cases xs with
      | nil =>
          rw [show jdumps (JVal.jarr []) ++ k = '[' :: (']' :: k) from rfl, parseF]
          have hsw := skipJsonWs_pre hpre '[' (by decide) (']' :: k)
          have hsw2 : skipJsonWs (']' :: k) = ']' :: k :=
            List.dropWhile_cons_of_neg (by decide)
          simp [hsw, hsw2]
      | cons w ws =>
          have hsh : pre ++ (jdumps (JVal.jarr (w :: ws)) ++ k) =
              pre ++ ('[' :: (jdumpsArr (w :: ws) ++ ']' :: k)) := by
            simp [jdumps]
          rw [hsh, parseF]
          have hsw := skipJsonWs_pre hpre '[' (by decide) (jdumpsArr (w :: ws) ++ ']' :: k)
          obtain ⟨X, hX⟩ := jdumpsArr_head_quote ws (hxs w (List.mem_cons_self w ws))
          have hsw2 : skipJsonWs (jdumpsArr (w :: ws) ++ ']' :: k) =
              '"' :: (X ++ ']' :: k) := by
            rw [hX]
            unfold skipJsonWs
            rw [List.cons_append, List.dropWhile_cons_of_neg (by decide)]
          have hlen : (w :: ws).length ≤ (jdumpsArr (w :: ws)).length :=
            jdumpsArr_length_ge hxs
          have hlen2 : (jdumps (JVal.jarr (w :: ws))).length =
              (jdumpsArr (w :: ws)).length + 2 := by
            simp [jdumps]
          have hloop := parseF_arrElems_strings (w :: ws) hxs [] (by decide) [] k f1
            (by rw [hlen2] at hf; simp only [List.length_cons] at hlen ⊢; omega)
            (List.cons_ne_nil w ws)
          rw [List.nil_append] at hloop
          rw [hsw]
          simp [hsw2, hloop]


/-! ## Strict-decoder correctness: the object member loop. -/

theorem objInsert_append {acc : List (String × JVal)} {key : String} (v : JVal)
    (h : key ∉ acc.map Prod.fst) : objInsert acc key v = acc ++ [(key, v)] := by
  induction acc with
  | nil => rfl
  | cons e rest ih =>
      obtain ⟨k0, v0⟩ := e
      simp only [List.map_cons, List.mem_cons] at h
      push_neg at h
      show (if k0 = key then (key, v) :: rest else (k0, v0) :: objInsert rest key v) = _
      rw [if_neg (fun he => h.1 he.symm), ih h.2]
      rfl

theorem renderEntry_length (e : String × JVal) :
    (renderEntry e).length = e.1.data.length + (jdumps e.2).length + 8 := by
  simp [renderEntry]
  omega

theorem parseF_objMembers :
    ∀ (es : List (String × JVal)), es ≠ [] →
      (∀ e ∈ es, safeStrB e.1.data = true ∧ safeValB e.2 = true) →
    ∀ (acc : List (String × JVal)),
      (acc.map Prod.fst ++ es.map Prod.fst).Nodup →
    ∀ (pre : List Char), (∀ x ∈ pre, isJsonWs x = true) →
    ∀ (rest : List Char) (fuel : Nat),
      2 * (joinItems ((",\n").data) (es.map renderEntry)).length + 4 ≤ fuel →
      parseF fuel (.objMembers acc)
          (pre ++ (joinItems ((",\n").data) (es.map renderEntry) ++
            '\n' :: '\x7d' :: rest)) =
        some (.jobj (acc ++ es), rest) := by
  intro es
  induction es with
  | nil => intro h; exact absurd rfl h
  | cons e es2 ih =>
      intro _ hes acc hnd pre hpre rest fuel hf
      obtain ⟨key, v⟩ := e
      obtain ⟨hk, hv⟩ := hes _ (List.mem_cons_self _ es2)
      obtain ⟨f1, rfl⟩ : ∃ f1, fuel = f1 + 1 := ⟨fuel - 1, by omega⟩
      have hkey : key ∉ acc.map Prod.fst := by
        have hdis := List.disjoint_of_nodup_append hnd
        exact fun hin => hdis hin (by simp)
      have hacc : objInsert acc key v = acc ++ [(key, v)] := objInsert_append v hkey
      have hjlen : (renderEntry (key, v)).length ≤
          (joinItems ((",\n").data) ((⟨key, v⟩ :: es2).map renderEntry)).length := by
        cases es2 with
        | nil => simp [joinItems]
        | cons y ys => simp [joinItems]
      have hrelen := renderEntry_length (key, v)
      cases es2 with
      | nil =>
          have hsh : pre ++ (joinItems ((",\n").data)
                ([(⟨key, v⟩ : String × JVal)].map renderEntry) ++
                '\n' :: '\x7d' :: rest) =
              (pre ++ [' ', ' ', ' ', ' ']) ++ '"' ::
                (key.data ++ '"' :: (':' :: (' ' ::
                  (jdumps v ++ ('\n' :: '\x7d' :: rest))))) := by
            simp [joinItems, renderEntry]
          have hpre2 : ∀ x ∈ pre ++ [' ', ' ', ' ', ' '], isJsonWs x = true := by
            intro x hx
            rcases List.mem_append.mp hx with hx | hx
            · exact hpre x hx
            · simp only [List.mem_cons, List.not_mem_nil, or_false] at hx
              rcases hx with rfl | rfl | rfl | rfl <;> decide
          rw [hsh, parseF]
          have hsw := skipJsonWs_pre hpre2 '"' (by decide)
            (key.data ++ '"' :: (':' :: (' ' :: (jdumps v ++ ('\n' :: '\x7d' :: rest)))))
          rw [hsw]
          have hps := parseStrBody_safe (safeStrB_chars hk)
            (':' :: (' ' :: (jdumps v ++ ('\n' :: '\x7d' :: rest))))
          have hsw2 : skipJsonWs (':' :: (' ' :: (jdumps v ++ ('\n' :: '\x7d' :: rest)))) =
              ':' :: (' ' :: (jdumps v ++ ('\n' :: '\x7d' :: rest))) :=
            List.dropWhile_cons_of_neg (by decide)
          obtain ⟨f2, rfl⟩ : ∃ f2, f1 = f2 + 1 := ⟨f1 - 1, by omega⟩
          have hval : parseF (f2 + 1) .value
              ([' '] ++ (jdumps v ++ ('\n' :: '\x7d' :: rest))) =
              some (v, '\n' :: '\x7d' :: rest) :=
            parseF_value_jdump hv (by decide) (List.takeWhile_cons_of_neg (by decide))
              (by rfl) (by rfl) (by rfl) (f2 + 1)
              (by
                have h9 : (joinItems ((",\n").data)
                    ([(⟨key, v⟩ : String × JVal)].map renderEntry)).length =
                    key.data.length + (jdumps v).length + 8 := by
                  rw [show joinItems ((",\n").data)
                      ([(⟨key, v⟩ : String × JVal)].map renderEntry) =
                    renderEntry (key, v) from rfl, renderEntry_length]
                rw [h9] at hf
                omega)
          rw [show (([' '] : List Char) ++ (jdumps v ++ ('\n' :: '\x7d' :: rest))) =
            ' ' :: (jdumps v ++ ('\n' :: '\x7d' :: rest)) from rfl] at hval
          have hsw3 : skipJsonWs ('\n' :: '\x7d' :: rest) = '\x7d' :: rest := by
            unfold skipJsonWs
            rw [List.dropWhile_cons_of_pos (by decide), List.dropWhile_cons_of_neg (by decide)]
          simp [hps, hsw2, hval, hsw3, hacc]
      | cons e2 es3 =>
          have hsh : pre ++ (joinItems ((",\n").data)
                ((⟨key, v⟩ :: e2 :: es3).map renderEntry) ++ '\n' :: '\x7d' :: rest) =
              (pre ++ [' ', ' ', ' ', ' ']) ++ '"' ::
                (key.data ++ '"' :: (':' :: (' ' ::
                  (jdumps v ++ (',' :: '\n' ::
                    (joinItems ((",\n").data) ((e2 :: es3).map renderEntry) ++
                      '\n' :: '\x7d' :: rest)))))) := by
            simp [joinItems, renderEntry]
          have hpre2 : ∀ x ∈ pre ++ [' ', ' ', ' ', ' '], isJsonWs x = true := by
            intro x hx
            rcases List.mem_append.mp hx with hx | hx
            · exact hpre x hx
            · simp only [List.mem_cons, List.not_mem_nil, or_false] at hx
              rcases hx with rfl | rfl | rfl | rfl <;> decide
          rw [hsh, parseF]
          have hsw := skipJsonWs_pre hpre2 '"' (by decide)
            (key.data ++ '"' :: (':' :: (' ' :: (jdumps v ++ (',' :: '\n' ::
              (joinItems ((",\n").data) ((e2 :: es3).map renderEntry) ++
                '\n' :: '\x7d' :: rest))))))
          rw [hsw]
          have hps : parseStrBody (key.data ++ '"' :: (':' :: (' ' ::
                (jdumps v ++ (',' :: '\n' ::
                  (joinItems ((",\n").data) ((e2 :: es3).map renderEntry) ++
                    '\n' :: '\x7d' :: rest)))))) =
              some (key.data, ':' :: (' ' :: (jdumps v ++ (',' :: '\n' ::
                (joinItems ((",\n").data) ((e2 :: es3).map renderEntry) ++
                  '\n' :: '\x7d' :: rest))))) :=
            parseStrBody_safe (safeStrB_chars hk) _
          have hsw2 : skipJsonWs (':' :: (' ' :: (jdumps v ++ (',' :: '\n' ::
              (joinItems ((",\n").data) ((e2 :: es3).map renderEntry) ++
                '\n' :: '\x7d' :: rest))))) =
              ':' :: (' ' :: (jdumps v ++ (',' :: '\n' ::
                (joinItems ((",\n").data) ((e2 :: es3).map renderEntry) ++
                  '\n' :: '\x7d' :: rest)))) :=
            List.dropWhile_cons_of_neg (by decide)
          obtain ⟨f2, rfl⟩ : ∃ f2, f1 = f2 + 1 := ⟨f1 - 1, by omega⟩
          have hjlen2 : (joinItems ((",\n").data)
                ((⟨key, v⟩ :: e2 :: es3).map renderEntry)).length =
              (renderEntry (key, v)).length + 2 +
                (joinItems ((",\n").data) ((e2 :: es3).map renderEntry)).length := by
            simp [joinItems]
            omega
          have hval : parseF (f2 + 1) .value
              ([' '] ++ (jdumps v ++ (',' :: '\n' ::
                (joinItems ((",\n").data) ((e2 :: es3).map renderEntry) ++
                  '\n' :: '\x7d' :: rest)))) =
              some (v, ',' :: '\n' ::
                (joinItems ((",\n").data) ((e2 :: es3).map renderEntry) ++
                  '\n' :: '\x7d' :: rest)) :=
            parseF_value_jdump hv (by decide) (List.takeWhile_cons_of_neg (by decide))
              (by rfl) (by rfl) (by rfl) (f2 + 1)
              (by
                rw [hjlen2, renderEntry_length] at hf
                omega)
          rw [show (([' '] : List Char) ++ (jdumps v ++ (',' :: '\n' ::
            (joinItems ((",\n").data) ((e2 :: es3).map renderEntry) ++
              '\n' :: '\x7d' :: rest)))) =
            ' ' :: (jdumps v ++ (',' :: '\n' ::
              (joinItems ((",\n").data) ((e2 :: es3).map renderEntry) ++
                '\n' :: '\x7d' :: rest))) from rfl] at hval
          have hsw3 : skipJsonWs (',' :: '\n' ::
              (joinItems ((",\n").data) ((e2 :: es3).map renderEntry) ++
                '\n' :: '\x7d' :: rest)) =
              ',' :: '\n' :: (joinItems ((",\n").data) ((e2 :: es3).map renderEntry) ++
                '\n' :: '\x7d' :: rest) :=
            List.dropWhile_cons_of_neg (by decide)
          have hnd2 : ((acc ++ [(⟨key, v⟩ : String × JVal)]).map Prod.fst ++
              (e2 :: es3).map Prod.fst).Nodup := by
            have h2 : (acc ++ [(⟨key, v⟩ : String × JVal)]).map Prod.fst ++
                (e2 :: es3).map Prod.fst =
                acc.map Prod.fst ++ ((⟨key, v⟩ :: e2 :: es3).map Prod.fst) := by
              simp
            rw [h2]
            exact hnd
          have hrec := ih (List.cons_ne_nil e2 es3)
            (fun x hx => hes x (List.mem_cons_of_mem _ hx))
            (acc ++ [(key, v)]) hnd2 ['\n'] (by decide) rest (f2 + 1)
            (by rw [hjlen2] at hf; omega)
          rw [show (['\n'] : List Char) ++
            (joinItems ((",\n").data) ((e2 :: es3).map renderEntry) ++
              '\n' :: '\x7d' :: rest) =
            '\n' :: (joinItems ((",\n").data) ((e2 :: es3).map renderEntry) ++
              '\n' :: '\x7d' :: rest) from rfl] at hrec
          have heta : ({ data := key.data } : String) = key := rfl
          simp only [hps, hsw2, hval, hsw3, heta, hacc, hrec,
            List.append_assoc, List.cons_append, List.nil_append]


/-! ## `json.loads` on the serialized object literal. -/

theorem jsonLoads_obj {es : List (String × JVal)}
    (hes : ∀ e ∈ es, safeStrB e.1.data = true ∧ safeValB e.2 = true)
    (hnd : (es.map Prod.fst).Nodup) :
    jsonLoads ('\x7b' :: '\n' ::
        (joinItems ((",\n").data) (es.map renderEntry) ++ ['\n', '\x7d'])) =
      some (.jobj es) := by
  unfold jsonLoads
  cases es with
  | nil => rfl
  | cons e es2 =>
      obtain ⟨f1, hf1⟩ : ∃ f1, 2 * (('\x7b' :: '\n' ::
          (joinItems ((",\n").data) ((e :: es2).map renderEntry) ++
            ['\n', '\x7d'])).length) + 4 = f1 + 1 :=
        ⟨2 * (('\x7b' :: '\n' ::
          (joinItems ((",\n").data) ((e :: es2).map renderEntry) ++
            ['\n', '\x7d'])).length) + 3, by omega⟩
      rw [hf1, parseF]
      have hsw : skipJsonWs ('\x7b' :: '\n' ::
          (joinItems ((",\n").data) ((e :: es2).map renderEntry) ++ ['\n', '\x7d'])) =
          '\x7b' :: '\n' ::
            (joinItems ((",\n").data) ((e :: es2).map renderEntry) ++ ['\n', '\x7d']) :=
        List.dropWhile_cons_of_neg (by decide)
      obtain ⟨X, hX⟩ := joinEntries_head e es2
      have hsw2 : skipJsonWs ('\n' ::
          (joinItems ((",\n").data) ((e :: es2).map renderEntry) ++ ['\n', '\x7d'])) =
          '"' :: (X ++ ['\n', '\x7d']) := by
        rw [hX]
        unfold skipJsonWs
        simp only [List.cons_append]
        rw [List.dropWhile_cons_of_pos (by decide), List.dropWhile_cons_of_pos (by decide),
          List.dropWhile_cons_of_pos (by decide), List.dropWhile_cons_of_pos (by decide),
          List.dropWhile_cons_of_pos (by decide), List.dropWhile_cons_of_neg (by decide)]
      have hloop := parseF_objMembers (e :: es2) (List.cons_ne_nil e es2) hes []
        (by simpa using hnd) ['\n'] (by decide) [] f1
        (by
          have hlen : ('\x7b' :: '\n' ::
              (joinItems ((",\n").data) ((e :: es2).map renderEntry) ++
                ['\n', '\x7d'])).length =
              (joinItems ((",\n").data) ((e :: es2).map renderEntry)).length + 4 := by
            simp
          omega)
      rw [show (['\n'] : List Char) ++
          (joinItems ((",\n").data) ((e :: es2).map renderEntry) ++ '\n' :: '\x7d' :: []) =
        '\n' :: (joinItems ((",\n").data) ((e :: es2).map renderEntry) ++
          ['\n', '\x7d']) from rfl] at hloop
      rw [List.nil_append] at hloop
      simp only [hsw, hsw2, hloop]
      rfl


/-! ## Locating the settings block in the serializer output. -/

theorem splitAtChar_first {stop : Char} :
    ∀ {a : List Char}, (∀ c ∈ a, c ≠ stop) → ∀ b,
      splitAtChar stop (a ++ stop :: b) = some (a, b) := by
  intro a
  induction a with
  | nil => intro _ b; simp [splitAtChar]
  | cons c a2 ih =>
      intro h b
      rw [List.cons_append]
      unfold splitAtChar
      rw [if_neg (h c (List.mem_cons_self c a2)),
        ih (fun x hx => h x (List.mem_cons_of_mem c hx)) b]
      rfl

theorem tryConstSettings_serialized (E : List Char) (hE : ∀ c ∈ E, c ≠ '\x7d')
    (rest : List Char) :
    tryConstSettings (("const settings = ").data ++
        ('\x7b' :: '\n' :: (E ++ '\n' :: '\x7d' :: rest))) =
      some ('\x7b' :: '\n' :: (E ++ ['\n', '\x7d']), rest.dropWhile isWsSemi) := by
  have hsplit : splitAtChar '\x7d' ('\n' :: (E ++ '\n' :: '\x7d' :: rest)) =
      some ('\n' :: (E ++ ['\n']), rest) := by
    have ha : ∀ c ∈ '\n' :: (E ++ ['\n']), c ≠ '\x7d' := by
      intro c hc
      rcases List.mem_cons.mp hc with rfl | hc
      · decide
      · rcases List.mem_append.mp hc with hc | hc
        · exact hE c hc
        · rcases List.mem_singleton.mp hc with rfl; decide
    have h2 := splitAtChar_first ha rest
    rw [show ('\n' :: (E ++ ['\n'])) ++ '\x7d' :: rest =
      '\n' :: (E ++ '\n' :: '\x7d' :: rest) from by simp] at h2
    exact h2
  simp [tryConstSettings, isPyWs, isWsSemi, hsplit]

theorem settingsMatch_serialized (E : List Char) (hE : ∀ c ∈ E, c ≠ '\x7d')
    (rest : List Char) :
    settingsMatchGo (("const settings = ").data ++
        ('\x7b' :: '\n' :: (E ++ '\n' :: '\x7d' :: rest))) =
      some ('\x7b' :: '\n' :: (E ++ ['\n', '\x7d']), rest.dropWhile isWsSemi) := by
  have htc := tryConstSettings_serialized E hE rest
  rw [show ("const settings = ").data ++
      ('\x7b' :: '\n' :: (E ++ '\n' :: '\x7d' :: rest)) =
    'c' :: (("onst settings = ").data ++
      ('\x7b' :: '\n' :: (E ++ '\n' :: '\x7d' :: rest))) from rfl] at htc ⊢
  unfold settingsMatchGo
  rw [htc]

theorem getLast?_append_pair (A B : List Char) (x y : Char) :
    (A ++ (B ++ [x, y])).getLast? = some y := by
  rw [show A ++ (B ++ [x, y]) = (A ++ (B ++ [x])) ++ [y] from by simp,
    List.getLast?_concat]

theorem serializeDoc_shape (m : List (String × JVal)) (sfx : List Char) :
    ∃ rest, serializeDoc m sfx = ("const settings = ").data ++
      ('\x7b' :: '\n' :: (joinItems ((",\n").data) ((sortEntries m).map renderEntry) ++
        '\n' :: '\x7d' :: rest)) := by
  cases hsfx : sfx with
  | nil =>
      refine ⟨['\n', ';'], ?_⟩
      have hlast : lastIs '\n' ('\x7b' :: '\n' ::
          (joinItems [',', '\n'] ((sortEntries m).map renderEntry) ++
            ['\n', '\x7d'])) = false := by
        unfold lastIs
        rw [show ('\x7b' :: '\n' ::
            (joinItems [',', '\n'] ((sortEntries m).map renderEntry) ++
              ['\n', '\x7d'])) = ['\x7b', '\n'] ++
            (joinItems [',', '\n'] ((sortEntries m).map renderEntry) ++
              ['\n', '\x7d']) from rfl,
          getLast?_append_pair]
        rfl
      simp [serializeDoc, hlast]
  | cons c r =>
      by_cases hnl : startsNlCr (c :: r) = true
      · exact ⟨';' :: c :: r, by simp [serializeDoc, hnl]⟩
      · have hnl2 : startsNlCr (c :: r) = false := by
          revert hnl
          cases startsNlCr (c :: r) <;> simp
        exact ⟨';' :: '\n' :: c :: r, by simp [serializeDoc, hnl2]⟩

/-- C2, amended for the precise statement provable from the code: the
round-trip holds for safe documents, with the captured suffix arbitrary.
For a settings document whose keys and string payloads use only the inert
characters of `safeChar` and are left alone by the three bare-token
substitutions, whose values are null, booleans, ints, safe strings or
arrays of safe strings, and whose keys are distinct, loading the
serializer's output succeeds on the strict path and reproduces exactly the
document's key set and per-key values: the reloaded settings are the sorted
entry list, a permutation of the document. -/
theorem roundtrip_safe_doc (m : List (String × JVal)) (sfx : List Char)
    (hm : safeDocB m = true) (hnd : (m.map Prod.fst).Nodup) :
    ∃ r, loadSettings (serializeDoc m sfx) = some r ∧
      r.settings = sortEntries m ∧ r.settings.Perm m ∧ r.strict = true := by
  have hperm : List.Perm (sortEntries m) m := List.perm_insertionSort entryLe m
  have hes : ∀ e ∈ sortEntries m, safeStrB e.1.data = true ∧ safeValB e.2 = true := by
    intro e he
    have hem : e ∈ m := hperm.mem_iff.mp he
    have h2 := List.all_eq_true.mp
      (show m.all (fun e => safeStrB e.1.data && safeValB e.2) = true from hm) e hem
    simpa [Bool.and_eq_true] using h2
  have hnds : ((sortEntries m).map Prod.fst).Nodup :=
    ((hperm.map Prod.fst).nodup_iff).mpr hnd
  have hE : ∀ c ∈ joinItems ((",\n").data) ((sortEntries m).map renderEntry),
      c ≠ '\x7d' := by
    intro c hc
    rcases joinEntries_chars hes c hc with h | rfl | rfl | rfl | rfl | rfl | rfl
    · exact safeChar_ne h (by decide)
    all_goals decide
  obtain ⟨rest, hshape⟩ := serializeDoc_shape m sfx
  rw [hshape]
  unfold loadSettings
  rw [settingsMatch_serialized _ hE rest]
  simp only [normalize_obj_id hes, jsonLoads_obj hes hnds]
  exact ⟨_, rfl, rfl, hperm, rfl⟩

/-- Witness: a concrete safe document with a parse-produced suffix that has
no leading newline, every hypothesis decided. -/
theorem roundtrip_safe_doc_witness :
    safeDocB [("zeta", JVal.jint 1), ("alpha", JVal.jstr "x"),
        ("profiles", JVal.jarr [JVal.jstr "a.json"])] = true ∧
    (([("zeta", JVal.jint 1), ("alpha", JVal.jstr "x"),
        ("profiles", JVal.jarr [JVal.jstr "a.json"])].map
          (Prod.fst (β := JVal))).Nodup) ∧
    ∃ r, loadSettings (serializeDoc
        [("zeta", JVal.jint 1), ("alpha", JVal.jstr "x"),
          ("profiles", JVal.jarr [JVal.jstr "a.json"])]
        (("export default settings;").data)) = some r ∧
      r.settings = sortEntries [("zeta", JVal.jint 1), ("alpha", JVal.jstr "x"),
        ("profiles", JVal.jarr [JVal.jstr "a.json"])] ∧
      r.settings.Perm [("zeta", JVal.jint 1), ("alpha", JVal.jstr "x"),
        ("profiles", JVal.jarr [JVal.jstr "a.json"])] ∧
      r.strict = true :=
  ⟨by decide, by decide,
    roundtrip_safe_doc _ _ (by decide) (by decide)⟩

end SettingsEditor
